import Mathlib

/-!
Verification development for the `diff-dot/elasticsearch` repository.

The file shallowly embeds the two algorithmic subsystems of the repository:

* entity identity derivation (`EsRepository.entityId`, `routingId`,
  `createEntity`, `indexEntity` in `src/EsRepository.ts`), and
* time-range index-name resolution (`EsRepository.indexesByTimeRange`,
  plus the legacy `indexSelectorByTimeRange` kept in `test/esrepo_old.txt`).

JavaScript values that can flow into string concatenation are modelled by
`JsValue` (strings, `undefined`, `null`), matching JS coercion semantics:
`undefined + "-"` is `"undefined-"` and `null + "-"` is `"null-"`.

Timestamps are epoch seconds modelled as `Nat` (the repository only ever
deals with post-1970 timestamps; the fixed `+09:00` display offset then
keeps all local times non-negative).  The moment.js calendar operations
used by the source (`startOf`/`endOf`/`add`/`format` on a fixed-offset
moment) are modelled over civil dates in the `+09:00` offset: a moment
pinned to the start of a unit is represented by the civil unit itself,
and `a.unix() <= b.unix()` comparisons between start-of-unit and
end-of-unit moments become lexicographic comparisons of the civil units,
which agree with the timestamp comparisons for valid dates.
-/

/-- JavaScript value that may appear in an entity property used for id
composition: a string, `undefined`, or `null`. -/
inductive JsValue where
  | undef : JsValue
  | nullv : JsValue
  | str : String → JsValue
deriving DecidableEq, Repr

/-- JS string coercion as performed by `value + delimiter` concatenation:
`undefined` becomes `"undefined"`, `null` becomes `"null"`. -/
def JsValue.coeStr : JsValue → String
  | .undef => "undefined"
  | .nullv => "null"
  | .str s => s

/-- JS truthiness for the values of `JsValue` (used by `if (routingId)`),
where `undefined`, `null` and the empty string are falsy. -/
def JsValue.truthy : JsValue → Bool
  | .undef => false
  | .nullv => false
  | .str s => s ≠ ""

/-- Options of the `@EntityId` decorator: an optional sequence number
(`seq?: number`). -/
structure EntityIdOptions where
  seq : Option Int
deriving DecidableEq, Repr

/-- Model of an entity together with the static decorator metadata of its
type: the `@EntityId`-decorated properties in declaration order with their
options, the optional `@RoutingId` property, and property access. -/
structure Entity where
  idProps : List (String × EntityIdOptions)
  routingProp : Option String
  get : String → JsValue

/-- Modelled from the external `@diff./repository` package: `getEntityIdProps`
returns the decorator metadata map of the entity type, or `undefined` when no
property of the type carries the `@EntityId` decorator (the reflection map
only exists once a decorator ran). -/
def getEntityIdProps (entity : Entity) : Option (List (String × EntityIdOptions)) :=
  if entity.idProps.isEmpty then none else some entity.idProps

/-- Modelled from the external `@diff./repository` package: `getRoutingIdProp`
returns the `@RoutingId`-decorated property name, or `undefined`. -/
def getRoutingIdProp (entity : Entity) : Option String :=
  entity.routingProp

/-- One element of the `entityIdList` built by `entityId`:
`{ prop: string; seq: number }` with `seq = options.seq || 0`. -/
structure IdItem where
  prop : String
  seq : Int
deriving DecidableEq, Repr

/-- Lexicographic comparison of character lists by code point, modelling the
order induced by `String.prototype.localeCompare` on the ASCII property
names used for entity ids. -/
def charsLe : List Char → List Char → Bool
  | [], _ => true
  | _ :: _, [] => false
  | a :: as, b :: bs =>
    if a.toNat < b.toNat then true
    else if b.toNat < a.toNat then false
    else charsLe as bs

theorem charsLe_total : ∀ as bs : List Char, charsLe as bs = true ∨ charsLe bs as = true := by
  intro as
  induction as with
  | nil => intro bs; exact Or.inl rfl
  | cons a as ih =>
    intro bs
    cases bs with
    | nil => exact Or.inr rfl
    | cons b bs =>
      rcases Nat.lt_trichotomy a.toNat b.toNat with h | h | h
      · exact Or.inl (by simp [charsLe, h])
      · rcases ih bs with hc | hc
        · exact Or.inl (by simp [charsLe, h, hc])
        · exact Or.inr (by simp [charsLe, h, hc])
      · exact Or.inr (by simp [charsLe, h])

theorem charsLe_trans : ∀ as bs cs : List Char,
    charsLe as bs = true → charsLe bs cs = true → charsLe as cs = true := by
  intro as
  induction as with
  | nil => intro bs cs _ _; rfl
  | cons a as ih =>
    intro bs cs hab hbc
    cases bs with
    | nil => exact absurd hab (by simp [charsLe])
    | cons b bs =>
      cases cs with
      | nil => exact absurd hbc (by simp [charsLe])
      | cons c cs =>
        simp only [charsLe] at hab hbc ⊢
        by_cases h1 : a.toNat < b.toNat
        · by_cases h2 : b.toNat < c.toNat
          · rw [if_pos (by omega)]
          · by_cases h2b : c.toNat < b.toNat
            · rw [if_neg h2, if_pos h2b] at hbc
              exact absurd hbc (by simp)
            · rw [if_pos (by omega)]
        · by_cases h1b : b.toNat < a.toNat
          · rw [if_neg h1, if_pos h1b] at hab
            exact absurd hab (by simp)
          · have hab2 : charsLe as bs = true := by rwa [if_neg h1, if_neg h1b] at hab
            by_cases h2 : b.toNat < c.toNat
            · rw [if_pos (by omega)]
            · by_cases h2b : c.toNat < b.toNat
              · rw [if_neg h2, if_pos h2b] at hbc
                exact absurd hbc (by simp)
              · have hbc2 : charsLe bs cs = true := by rwa [if_neg h2, if_neg h2b] at hbc
                rw [if_neg (by omega), if_neg (by omega)]
                exact ih bs cs hab2 hbc2

/-- Ordering used by the `entityIdList.sort` comparator
`(a, b) => a.seq - b.seq || a.prop.localeCompare(b.prop)`: ascending by
`seq`, ties broken by property name. -/
def idItemLe (a b : IdItem) : Prop :=
  a.seq < b.seq ∨ (a.seq = b.seq ∧ charsLe a.prop.data b.prop.data = true)

instance (a b : IdItem) : Decidable (idItemLe a b) := by
  unfold idItemLe; infer_instance

instance : IsTotal IdItem idItemLe where
  total a b := by
    unfold idItemLe
    rcases lt_trichotomy a.seq b.seq with h | h | h
    · exact Or.inl (Or.inl h)
    · rcases charsLe_total a.prop.data b.prop.data with hp | hp
      · exact Or.inl (Or.inr ⟨h, hp⟩)
      · exact Or.inr (Or.inr ⟨h.symm, hp⟩)
    · exact Or.inr (Or.inl h)

instance : IsTrans IdItem idItemLe where
  trans a b c hab hbc := by
    unfold idItemLe at *
    rcases hab with h1 | ⟨h1, h1p⟩ <;> rcases hbc with h2 | ⟨h2, h2p⟩
    · exact Or.inl (h1.trans h2)
    · exact Or.inl (h2 ▸ h1)
    · exact Or.inl (h1 ▸ h2)
    · exact Or.inr ⟨h1.trans h2, charsLe_trans _ _ _ h1p h2p⟩

/-- JS `s.substr(0, n)` for a possibly negative requested length `n`
(a negative length yields the empty string). -/
def jsSubstr0 (s : String) (n : Int) : String :=
  String.mk (s.data.take n.toNat)

/-- Embedding of `EsRepository.entityId`: extract the entity id from the
`@EntityId`-decorated properties.  Properties are sorted by `(seq, name)`,
their values are JS-concatenated each followed by the delimiter, and the
trailing delimiter is stripped with `substr(0, length - delimiter.length)`.
Returns `none` when the type declares no id properties.  The JS `sort` with
a total comparator is modelled by `List.insertionSort`. -/
def entityId (entity : Entity) (delimiter : String) : Option String :=
  match getEntityIdProps entity with
  | none => none
  | some entityIdProps =>
    let entityIdList : List IdItem :=
      entityIdProps.map (fun po => ⟨po.1, (po.2.seq).getD 0⟩)
    let sortedEntityIdList := List.insertionSort idItemLe entityIdList
    let acc : String :=
      sortedEntityIdList.foldl
        (fun acc item => acc ++ (entity.get item.prop).coeStr ++ delimiter) ""
    some (jsSubstr0 acc ((acc.length : Int) - (delimiter.length : Int)))

/-- Embedding of `EsRepository.routingId`: the value of the
`@RoutingId`-decorated property, or `undefined` when none is declared. -/
def routingId (entity : Entity) : JsValue :=
  match getRoutingIdProp entity with
  | some p => entity.get p
  | none => JsValue.undef

/-- Errors thrown by the embedded repository operations. -/
inductive RepoError where
  | invalidTimeRange : String → RepoError
  | rangeError : String → RepoError
  | genericError : String → RepoError
deriving DecidableEq, Repr

/-- Request parameters assembled by `createEntity` (`RequestParams.Create`):
the document id is mandatory. -/
structure CreateParams where
  index : String
  id : String
  routing : Option String
deriving DecidableEq, Repr

/-- Request parameters assembled by `indexEntity` (`RequestParams.Index`):
the document id is optional and may be `undefined`. -/
structure IndexParams where
  index : String
  id : Option String
  routing : Option String
deriving DecidableEq, Repr

/-- Embedding of `EsRepository.createEntity` up to the store call: it
computes the entity id (default delimiter `"-"`), throws
`Error('entityId decorator requried')` when the id is falsy (absent or the
empty string), and otherwise assembles the create request. -/
def createEntity (entity : Entity) (index : String) : Except RepoError CreateParams :=
  let eid := entityId entity "-"
  if eid = none ∨ eid = some "" then
    Except.error (RepoError.genericError "entityId decorator requried")
  else
    let r := routingId entity
    Except.ok ⟨index, eid.getD "", if r.truthy then some r.coeStr else none⟩

/-- Embedding of `EsRepository.indexEntity` up to the store call: the entity
id is passed through as-is (possibly `undefined`) with no falsy check. -/
def indexEntity (entity : Entity) (index : String) : Except RepoError IndexParams :=
  let eid := entityId entity "-"
  let r := routingId entity
  Except.ok ⟨index, eid, if r.truthy then some r.coeStr else none⟩

/-- Values joined with a delimiter between consecutive elements (the form
the specification describes: concatenate with delimiter, no trailing
delimiter). -/
def sepJoin (d : String) : List String → String
  | [] => ""
  | [x] => x
  | x :: y :: ys => x ++ d ++ sepJoin d (y :: ys)

/-- Plain concatenation of a list of strings. -/
def concatAll : List String → String
  | [] => ""
  | x :: xs => x ++ concatAll xs

/-- The sorted id items `entityId` composes, as a standalone definition. -/
def sortedIdItems (entity : Entity) : List IdItem :=
  List.insertionSort idItemLe (entity.idProps.map (fun po => ⟨po.1, (po.2.seq).getD 0⟩))

theorem foldl_append_delim {α : Type} (f : α → String) (d : String) :
    ∀ (l : List α) (a : String),
      List.foldl (fun acc x => acc ++ f x ++ d) a l = a ++ concatAll (l.map fun x => f x ++ d) := by
  intro l
  induction l with
  | nil => intro a; simp [concatAll]
  | cons x xs ih =>
    intro a
    simp only [List.foldl_cons, List.map_cons, concatAll]
    rw [ih]
    simp [String.append_assoc]

theorem concatAll_delim_eq_sepJoin {α : Type} (d : String) (f : α → String) :
    ∀ (l : List α), l ≠ [] →
      concatAll (l.map fun x => f x ++ d) = sepJoin d (l.map f) ++ d := by
  intro l
  induction l with
  | nil => intro h; exact absurd rfl h
  | cons x xs ih =>
    intro _
    cases xs with
    | nil => simp [concatAll, sepJoin]
    | cons y ys =>
      simp only [List.map_cons, concatAll] at *
      rw [ih (by simp), sepJoin]
      simp [String.append_assoc]

theorem data_append (s t : String) : (s ++ t).data = s.data ++ t.data := by
  cases s; cases t; rfl

theorem jsSubstr0_strip (s d : String) :
    jsSubstr0 (s ++ d) (((s ++ d).length : Int) - (d.length : Int)) = s := by
  have hlen : (s ++ d).length = s.length + d.length := by
    show (s ++ d).data.length = _
    rw [data_append, List.length_append]; rfl
  have hn : (((s ++ d).length : Int) - (d.length : Int)).toNat = s.length := by
    rw [hlen]; omega
  unfold jsSubstr0
  rw [hn]
  have : (s ++ d).data.take s.length = s.data := by
    rw [data_append]
    exact List.take_left s.data d.data
  rw [this]

/-- Core computation of `entityId` on a type with declared id properties:
the result is the sorted property values joined by the delimiter with the
trailing delimiter stripped. -/
theorem entityId_eq_sepJoin (e : Entity) (d : String) (h : e.idProps ≠ []) :
    entityId e d =
      some (sepJoin d ((sortedIdItems e).map (fun it => (e.get it.prop).coeStr))) := by
  unfold entityId getEntityIdProps
  have hne : e.idProps.isEmpty = false := by
    cases hlp : e.idProps with
    | nil => exact absurd hlp h
    | cons a l => rfl
  rw [hne]
  simp only [Bool.false_eq_true, if_false]
  have hsorted_ne : sortedIdItems e ≠ [] := by
    intro hc
    have hlen := List.Perm.length_eq
      (List.perm_insertionSort idItemLe (e.idProps.map (fun po => ⟨po.1, (po.2.seq).getD 0⟩)))
    have hl2 : (sortedIdItems e).length = e.idProps.length := by
      unfold sortedIdItems; rw [hlen, List.length_map]
    rw [hc] at hl2
    exact h (List.length_eq_zero.mp hl2.symm)
  simp only [sortedIdItems] at hsorted_ne ⊢
  have hfold := foldl_append_delim (fun it => (e.get it.prop).coeStr) d
    (List.insertionSort idItemLe (e.idProps.map (fun po => ⟨po.1, (po.2.seq).getD 0⟩))) ""
  have hcat := concatAll_delim_eq_sepJoin d (fun it => (e.get it.prop).coeStr) _ hsorted_ne
  simp only [hfold, hcat]
  have hempty : ∀ t : String, "" ++ t = t := fun t => by
    show String.mk ([] ++ t.data) = t
    cases t; rfl
  rw [hempty]
  exact congrArg some (jsSubstr0_strip _ d)

/-- Claims C5/C6 share this example entity shape: id properties `a` (seq 1)
and `b` (seq 0) with values `"a"` and `"b"`. -/
def exampleBA : Entity :=
  ⟨[("a", ⟨some 1⟩), ("b", ⟨some 0⟩)], none,
    fun p => if p = "a" then JsValue.str "a" else JsValue.str "b"⟩

/-- Example entity with three id properties whose values are all absent
(`undefined`). -/
def entAllAbsent : Entity :=
  ⟨[("a", ⟨none⟩), ("b", ⟨none⟩), ("c", ⟨none⟩)], none, fun _ => JsValue.undef⟩

/-- Claim C9: `entityId` (buildPrimaryKey) returns absent if and only if the
entity's type declares no id fields; no error is raised in that case. -/
theorem entityId_none_iff_no_idProps (e : Entity) (d : String) :
    entityId e d = none ↔ e.idProps = [] := by
  unfold entityId getEntityIdProps
  cases h : e.idProps with
  | nil => simp
  | cons a l => simp [List.isEmpty]

/-- Claim C6: `entityId` sorts the id fields by sequence ascending with field
name ascending as tie-break, concatenates the resolved values in that order
separated by the delimiter, and strips the trailing delimiter. -/
theorem entityId_ordering (e : Entity) (d : String) (h : e.idProps ≠ []) :
    entityId e d = some (sepJoin d ((sortedIdItems e).map (fun it => (e.get it.prop).coeStr)))
    ∧ List.Sorted idItemLe (sortedIdItems e)
    ∧ (sortedIdItems e).Perm (e.idProps.map (fun po => ⟨po.1, (po.2.seq).getD 0⟩)) :=
  ⟨entityId_eq_sepJoin e d h, List.sorted_insertionSort _ _, List.perm_insertionSort _ _⟩

/-- Witness for C6 at the specification's own example: id fields
`{a: seq=1, b: seq=0}` with values `a="a"`, `b="b"` give `"b-a"`. -/
theorem entityId_ordering_witness : entityId exampleBA "-" = some "b-a" := by
  have h := (entityId_ordering exampleBA "-" (by decide)).1
  rw [h]; rfl

/-- Counterexample to claim C5 as stated: with three id fields whose values
are all absent, the composed key is `"undefined-undefined-undefined"`
(JS string coercion of `undefined`), not the claimed `"--"`. -/
theorem entityId_absent_values_cex :
    entityId entAllAbsent "-" = some "undefined-undefined-undefined" ∧
    ¬ entityId entAllAbsent "-" = some "--" := by
  constructor
  · rfl
  · decide

/-- Claim C5 as amended: an absent (undefined) id-field value contributes the
JS-coerced segment `"undefined"` (followed by the delimiter), not an empty
segment; an entity whose id-field values are all undefined yields the
delimiter-joined repetition of `"undefined"`, and this is not an error. -/
theorem entityId_all_absent (e : Entity) (d : String) (h : e.idProps ≠ [])
    (hv : ∀ pr ∈ e.idProps, e.get pr.1 = JsValue.undef) :
    entityId e d = some (sepJoin d (List.replicate e.idProps.length "undefined")) := by
  rw [entityId_eq_sepJoin e d h]
  congr 1
  congr 1
  rw [List.eq_replicate_iff]
  constructor
  · rw [List.length_map]
    have hp := List.Perm.length_eq
      (List.perm_insertionSort idItemLe (e.idProps.map (fun po => ⟨po.1, (po.2.seq).getD 0⟩)))
    unfold sortedIdItems
    rw [hp, List.length_map]
  · intro b hb
    rw [List.mem_map] at hb
    obtain ⟨it, hit, hbe⟩ := hb
    have hmem : it ∈ e.idProps.map (fun po => (⟨po.1, (po.2.seq).getD 0⟩ : IdItem)) :=
      (List.Perm.mem_iff (List.perm_insertionSort _ _)).mp hit
    rw [List.mem_map] at hmem
    obtain ⟨pr, hpr, hpe⟩ := hmem
    have hprop : it.prop = pr.1 := by rw [← hpe]
    rw [← hbe, hprop, hv pr hpr]
    rfl

/-- Witness for the amended C5 at a concrete entity with three absent
id-field values. -/
theorem entityId_all_absent_witness :
    entityId entAllAbsent "-" = some (sepJoin "-" (List.replicate 3 "undefined")) := by
  exact entityId_all_absent entAllAbsent "-" (by decide) (by decide)

/-- Claim C10: `createEntity` throws `Error('entityId decorator requried')`
exactly when the composed entity id is falsy (absent or the empty string),
while `indexEntity` accepts an absent id and passes it through. -/
theorem createEntity_falsy_throws (e : Entity) (idx : String) :
    (createEntity e idx = Except.error (RepoError.genericError "entityId decorator requried")
      ↔ (entityId e "-" = none ∨ entityId e "-" = some ""))
    ∧ ∃ p : IndexParams, indexEntity e idx = Except.ok p ∧ p.id = entityId e "-" := by
  constructor
  · unfold createEntity
    by_cases hc : entityId e "-" = none ∨ entityId e "-" = some ""
    · simp [hc]
    · simp [hc]
  · exact ⟨_, rfl, rfl⟩

/-- Gregorian leap-year rule. -/
def isLeap (y : Nat) : Bool :=
  (y % 4 == 0 && y % 100 != 0) || y % 400 == 0

/-- Number of days of month `m` in year `y` (months are 1-based). -/
def daysInMonth (y m : Nat) : Nat :=
  if m = 2 then (if isLeap y then 29 else 28)
  else if m = 4 ∨ m = 6 ∨ m = 9 ∨ m = 11 then 30
  else 31

/-- Number of days in year `y`. -/
def daysInYear (y : Nat) : Nat :=
  if isLeap y then 366 else 365

theorem daysInMonth_pos (y m : Nat) : 0 < daysInMonth y m := by
  unfold daysInMonth
  split
  · split <;> omega
  · split <;> omega

theorem daysInMonth_le_31 (y m : Nat) : daysInMonth y m ≤ 31 := by
  unfold daysInMonth
  split
  · split <;> omega
  · split <;> omega

theorem daysInYear_pos (y : Nat) : 0 < daysInYear y := by
  unfold daysInYear; split <;> omega

/-- A civil date in the fixed `+09:00` offset. -/
structure Date where
  year : Nat
  month : Nat
  day : Nat
deriving DecidableEq, Repr

/-- Valid calendar dates: month in `[1,12]`, day within the month. -/
def ValidDate (d : Date) : Prop :=
  1 ≤ d.month ∧ d.month ≤ 12 ∧ 1 ≤ d.day ∧ d.day ≤ daysInMonth d.year d.month

instance (d : Date) : Decidable (ValidDate d) := by
  unfold ValidDate; infer_instance

/-- Calendar successor of a date (moment `add(1, 'day')` in a fixed offset). -/
def nextDay (d : Date) : Date :=
  if d.day < daysInMonth d.year d.month then ⟨d.year, d.month, d.day + 1⟩
  else if d.month < 12 then ⟨d.year, d.month + 1, 1⟩
  else ⟨d.year + 1, 1, 1⟩

/-- Structural worker for `yearOfDay`; `fuel` bounds the number of year
steps (kept structural so that the kernel can evaluate it). -/
def yearOfDayAux (fuel y n : Nat) : Nat × Nat :=
  match fuel with
  | 0 => (y, n)
  | fuel + 1 =>
    if n < daysInYear y then (y, n) else yearOfDayAux fuel (y + 1) (n - daysInYear y)

/-- Split an epoch-day count into `(year, day-of-year)` starting the scan at
year `y` (day-of-year is 0-based). -/
def yearOfDay (y n : Nat) : Nat × Nat := yearOfDayAux (n + 1) y n

theorem yearOfDayAux_stable : ∀ n f g y, n < f → n < g →
    yearOfDayAux f y n = yearOfDayAux g y n := by
  intro n
  induction n using Nat.strong_induction_on with
  | _ n ih =>
    intro f g y hf hg
    cases f with
    | zero => omega
    | succ f =>
      cases g with
      | zero => omega
      | succ g =>
        simp only [yearOfDayAux]
        by_cases h : n < daysInYear y
        · rw [if_pos h, if_pos h]
        · rw [if_neg h, if_neg h]
          have hd := daysInYear_pos y
          exact ih (n - daysInYear y) (by omega) f g (y + 1) (by omega) (by omega)

theorem yearOfDay_unfold (y n : Nat) :
    yearOfDay y n =
      if n < daysInYear y then (y, n) else yearOfDay (y + 1) (n - daysInYear y) := by
  show yearOfDayAux (n + 1) y n = _
  simp only [yearOfDayAux]
  by_cases h : n < daysInYear y
  · rw [if_pos h, if_pos h]
  · rw [if_neg h, if_neg h]
    have hd := daysInYear_pos y
    exact yearOfDayAux_stable (n - daysInYear y) n ((n - daysInYear y) + 1) (y + 1)
      (by omega) (by omega)

/-- Structural worker for `monthOfDay`. -/
def monthOfDayAux (fuel y m n : Nat) : Nat × Nat :=
  match fuel with
  | 0 => (m, n)
  | fuel + 1 =>
    if 12 ≤ m then (m, n)
    else if n < daysInMonth y m then (m, n)
    else monthOfDayAux fuel y (m + 1) (n - daysInMonth y m)

/-- Split a 0-based day-of-year into `(month, day-of-month)` starting the
scan at month `m` (day-of-month is 0-based). -/
def monthOfDay (y m n : Nat) : Nat × Nat := monthOfDayAux (13 - m) y m n

theorem monthOfDay_unfold (y m n : Nat) :
    monthOfDay y m n =
      if 12 ≤ m then (m, n)
      else if n < daysInMonth y m then (m, n)
      else monthOfDay y (m + 1) (n - daysInMonth y m) := by
  show monthOfDayAux (13 - m) y m n = _
  by_cases h : 12 ≤ m
  · rw [if_pos h]
    by_cases h13 : 13 ≤ m
    · rw [show 13 - m = 0 from by omega]
      rfl
    · rw [show 13 - m = 1 from by omega]
      simp only [monthOfDayAux]
      rw [if_pos h]
  · rw [if_neg h, show 13 - m = (13 - (m + 1)) + 1 from by omega]
    simp only [monthOfDayAux]
    rw [if_neg h]
    rfl

/-- Civil date of 1970-epoch day `n` in the proleptic Gregorian calendar
(models how moment.js renders a fixed-offset timestamp). -/
def civilFromDay (n : Nat) : Date :=
  let yd := yearOfDay 1970 n
  let md := monthOfDay yd.1 1 yd.2
  ⟨yd.1, md.1, md.2 + 1⟩

/-- Epoch day (in the `+09:00` offset) containing epoch second `t`:
moment's `utcOffset(9)` shifts the displayed clock by `+32400` seconds. -/
def dayIdx (t : Nat) : Nat := (t + 32400) / 86400

/-- Civil date (in the `+09:00` offset) containing epoch second `t`. -/
def dateOf (t : Nat) : Date := civilFromDay (dayIdx t)

/-- Lexicographic order on dates; for valid dates this coincides with the
order of the underlying timestamps, so it models every
`cursor.unix() <= endAtDate.unix()` comparison between a start-of-unit
moment and an end-of-unit moment. -/
def dLe (a b : Date) : Prop :=
  a.year < b.year ∨ (a.year = b.year ∧
    (a.month < b.month ∨ (a.month = b.month ∧ a.day ≤ b.day)))

instance (a b : Date) : Decidable (dLe a b) := by
  unfold dLe; infer_instance

/-- Order on `(year, month)` pairs used by the monthly loop. -/
def pLe (a b : Nat × Nat) : Prop :=
  a.1 < b.1 ∨ (a.1 = b.1 ∧ a.2 ≤ b.2)

instance (a b : Nat × Nat) : Decidable (pLe a b) := by
  unfold pLe; infer_instance

/-- Rank of a date, strictly increasing along `nextDay` for valid dates. -/
def rankD (d : Date) : Nat := (d.year * 12 + d.month) * 32 + d.day

/-- Structural worker for `monthsTailSum`. -/
def monthsTailSumAux (fuel y m : Nat) : Nat :=
  match fuel with
  | 0 => 0
  | fuel + 1 => if 12 < m then 0 else daysInMonth y m + monthsTailSumAux fuel y (m + 1)

/-- Sum of the lengths of months `m` through `12` of year `y`. -/
def monthsTailSum (y m : Nat) : Nat := monthsTailSumAux (13 - m) y m

theorem monthsTailSum_unfold (y m : Nat) :
    monthsTailSum y m = if 12 < m then 0 else daysInMonth y m + monthsTailSum y (m + 1) := by
  show monthsTailSumAux (13 - m) y m = _
  by_cases h : 12 < m
  · rw [if_pos h, show 13 - m = 0 from by omega]
    rfl
  · rw [if_neg h, show 13 - m = (13 - (m + 1)) + 1 from by omega]
    simp only [monthsTailSumAux]
    rw [if_neg h]
    rfl

theorem monthsTailSum_one (y : Nat) : monthsTailSum y 1 = daysInYear y := by
  rw [monthsTailSum_unfold, monthsTailSum_unfold, monthsTailSum_unfold, monthsTailSum_unfold,
    monthsTailSum_unfold, monthsTailSum_unfold, monthsTailSum_unfold, monthsTailSum_unfold,
    monthsTailSum_unfold, monthsTailSum_unfold, monthsTailSum_unfold, monthsTailSum_unfold,
    monthsTailSum_unfold]
  norm_num [daysInMonth, daysInYear]
  split <;> omega

theorem yearOfDay_snd_lt (n : Nat) : ∀ y, (yearOfDay y n).2 < daysInYear (yearOfDay y n).1 := by
  induction n using Nat.strong_induction_on with
  | _ n ih =>
    intro y
    rw [yearOfDay_unfold]
    split
    · next h => simpa using h
    · next h =>
      have := daysInYear_pos y
      exact ih (n - daysInYear y) (by omega) (y + 1)

theorem yearOfDay_succ (n : Nat) : ∀ y,
    yearOfDay y (n + 1) =
      (if (yearOfDay y n).2 + 1 < daysInYear (yearOfDay y n).1
       then ((yearOfDay y n).1, (yearOfDay y n).2 + 1)
       else ((yearOfDay y n).1 + 1, 0)) := by
  induction n using Nat.strong_induction_on with
  | _ n ih =>
    intro y
    by_cases h1 : n + 1 < daysInYear y
    · have hyn : yearOfDay y n = (y, n) := by rw [yearOfDay_unfold, if_pos (by omega)]
      have hyn1 : yearOfDay y (n + 1) = (y, n + 1) := by rw [yearOfDay_unfold, if_pos h1]
      rw [hyn, hyn1]
      simp only []
      rw [if_pos h1]
    · by_cases h2 : n < daysInYear y
      · have hyn : yearOfDay y n = (y, n) := by rw [yearOfDay_unfold, if_pos h2]
        have harg : n + 1 - daysInYear y = 0 := by omega
        have hyn1 : yearOfDay y (n + 1) = (y + 1, 0) := by
          rw [yearOfDay_unfold, if_neg h1, harg, yearOfDay_unfold, if_pos (daysInYear_pos _)]
        rw [hyn, hyn1]
        simp only []
        rw [if_neg h1]
      · have hd := daysInYear_pos y
        have hyn : yearOfDay y n = yearOfDay (y + 1) (n - daysInYear y) := by
          rw [yearOfDay_unfold, if_neg h2]
        have hstep : yearOfDay y (n + 1) = yearOfDay (y + 1) (n + 1 - daysInYear y) := by
          rw [yearOfDay_unfold, if_neg h1]
        have harg : n + 1 - daysInYear y = (n - daysInYear y) + 1 := by omega
        rw [hstep, harg, ih (n - daysInYear y) (by omega) (y + 1), hyn]

theorem monthsTailSum_pos (y m : Nat) (h : m ≤ 12) : 0 < monthsTailSum y m := by
  rw [monthsTailSum_unfold, if_neg (by omega)]
  have := daysInMonth_pos y m
  omega

theorem monthsTailSum_thirteen (y : Nat) : monthsTailSum y 13 = 0 := by
  rw [monthsTailSum_unfold, if_pos (by omega)]

theorem monthsTailSum_twelve (y : Nat) : monthsTailSum y 12 = daysInMonth y 12 := by
  rw [monthsTailSum_unfold, if_neg (by omega), monthsTailSum_thirteen]
  omega

theorem monthsTailSum_step (y m : Nat) (h : m ≤ 12) :
    monthsTailSum y m = daysInMonth y m + monthsTailSum y (m + 1) := by
  rw [monthsTailSum_unfold, if_neg (by omega)]

theorem monthOfDay_zero (y m : Nat) : monthOfDay y m 0 = (m, 0) := by
  rw [monthOfDay_unfold]
  split
  · rfl
  · rw [if_pos (daysInMonth_pos y m)]

theorem monthOfDay_invariant : ∀ k y m n, 12 - m = k → 1 ≤ m → m ≤ 12 →
    n < monthsTailSum y m →
    (m ≤ (monthOfDay y m n).1 ∧ (monthOfDay y m n).1 ≤ 12
      ∧ (monthOfDay y m n).2 < daysInMonth y (monthOfDay y m n).1
      ∧ n + (daysInMonth y (monthOfDay y m n).1 - (monthOfDay y m n).2)
          + monthsTailSum y ((monthOfDay y m n).1 + 1) = monthsTailSum y m) := by
  intro k
  induction k with
  | zero =>
    intro y m n hk h1 h2 hn
    have hm : m = 12 := by omega
    subst hm
    rw [monthsTailSum_twelve] at hn
    have hmo : monthOfDay y 12 n = (12, n) := by rw [monthOfDay_unfold, if_pos (by omega)]
    rw [hmo]
    simp only []
    rw [monthsTailSum_twelve, monthsTailSum_thirteen]
    omega
  | succ k ih =>
    intro y m n hk h1 h2 hn
    have hm12 : m < 12 := by omega
    have hts : monthsTailSum y m = daysInMonth y m + monthsTailSum y (m + 1) :=
      monthsTailSum_step y m (by omega)
    by_cases hdm : n < daysInMonth y m
    · have hmo : monthOfDay y m n = (m, n) := by
        rw [monthOfDay_unfold, if_neg (by omega), if_pos hdm]
      rw [hmo]
      simp only []
      exact ⟨le_refl _, by omega, hdm, by omega⟩
    · have hmo : monthOfDay y m n = monthOfDay y (m + 1) (n - daysInMonth y m) := by
        rw [monthOfDay_unfold, if_neg (by omega), if_neg hdm]
      have hrec := ih y (m + 1) (n - daysInMonth y m) (by omega) (by omega) (by omega) (by omega)
      rw [hmo]
      obtain ⟨a, b, c, d⟩ := hrec
      exact ⟨by omega, b, c, by omega⟩

theorem monthOfDay_succ : ∀ k y m n, 12 - m = k → 1 ≤ m → m ≤ 12 →
    n + 1 < monthsTailSum y m →
    monthOfDay y m (n + 1) =
      (if (monthOfDay y m n).2 + 1 < daysInMonth y (monthOfDay y m n).1
       then ((monthOfDay y m n).1, (monthOfDay y m n).2 + 1)
       else ((monthOfDay y m n).1 + 1, 0)) := by
  intro k
  induction k with
  | zero =>
    intro y m n hk h1 h2 hn
    have hm : m = 12 := by omega
    subst hm
    rw [monthsTailSum_twelve] at hn
    have hmo : monthOfDay y 12 n = (12, n) := by rw [monthOfDay_unfold, if_pos (by omega)]
    have hmo1 : monthOfDay y 12 (n + 1) = (12, n + 1) := by rw [monthOfDay_unfold, if_pos (by omega)]
    rw [hmo, hmo1]
    simp only []
    rw [if_pos hn]
  | succ k ih =>
    intro y m n hk h1 h2 hn
    have hm12 : m < 12 := by omega
    have hts : monthsTailSum y m = daysInMonth y m + monthsTailSum y (m + 1) :=
      monthsTailSum_step y m (by omega)
    by_cases hd1 : n + 1 < daysInMonth y m
    · have hmo : monthOfDay y m n = (m, n) := by
        rw [monthOfDay_unfold, if_neg (by omega), if_pos (by omega)]
      have hmo1 : monthOfDay y m (n + 1) = (m, n + 1) := by
        rw [monthOfDay_unfold, if_neg (by omega), if_pos hd1]
      rw [hmo, hmo1]
      simp only []
      rw [if_pos hd1]
    · by_cases hd2 : n < daysInMonth y m
      · have hmo : monthOfDay y m n = (m, n) := by
          rw [monthOfDay_unfold, if_neg (by omega), if_pos hd2]
        have harg : n + 1 - daysInMonth y m = 0 := by omega
        have hmo1 : monthOfDay y m (n + 1) = (m + 1, 0) := by
          rw [monthOfDay_unfold, if_neg (by omega), if_neg hd1, harg, monthOfDay_zero]
        rw [hmo, hmo1]
        simp only []
        rw [if_neg hd1]
      · have hmo : monthOfDay y m n = monthOfDay y (m + 1) (n - daysInMonth y m) := by
          rw [monthOfDay_unfold, if_neg (by omega), if_neg hd2]
        have hmo1 : monthOfDay y m (n + 1) = monthOfDay y (m + 1) (n + 1 - daysInMonth y m) := by
          rw [monthOfDay_unfold, if_neg (by omega), if_neg hd1]
        have harg : n + 1 - daysInMonth y m = (n - daysInMonth y m) + 1 := by
          have := daysInMonth_pos y m
          omega
        rw [hmo1, harg, ih y (m + 1) (n - daysInMonth y m) (by omega) (by omega) (by omega)
          (by omega), hmo]

theorem civilFromDay_def (n : Nat) :
    civilFromDay n =
      ⟨(yearOfDay 1970 n).1,
        (monthOfDay (yearOfDay 1970 n).1 1 (yearOfDay 1970 n).2).1,
        (monthOfDay (yearOfDay 1970 n).1 1 (yearOfDay 1970 n).2).2 + 1⟩ := rfl

theorem nextDay_mk (y m d : Nat) :
    nextDay ⟨y, m, d⟩ =
      if d < daysInMonth y m then ⟨y, m, d + 1⟩
      else if m < 12 then ⟨y, m + 1, 1⟩
      else ⟨y + 1, 1, 1⟩ := rfl


theorem civilFromDay_valid (n : Nat) : ValidDate (civilFromDay n) := by
  have hy := yearOfDay_snd_lt n 1970
  have hmon := monthOfDay_invariant 11 (yearOfDay 1970 n).1 1 (yearOfDay 1970 n).2 rfl
    (by omega) (by omega) (by rw [monthsTailSum_one]; exact hy)
  obtain ⟨hm1, hm12, hdom, _⟩ := hmon
  refine ⟨?_, ?_, ?_, ?_⟩
  · show 1 ≤ (monthOfDay (yearOfDay 1970 n).1 1 (yearOfDay 1970 n).2).1
    omega
  · show (monthOfDay (yearOfDay 1970 n).1 1 (yearOfDay 1970 n).2).1 ≤ 12
    exact hm12
  · show 1 ≤ (monthOfDay (yearOfDay 1970 n).1 1 (yearOfDay 1970 n).2).2 + 1
    omega
  · show (monthOfDay (yearOfDay 1970 n).1 1 (yearOfDay 1970 n).2).2 + 1 ≤
      daysInMonth (yearOfDay 1970 n).1 (monthOfDay (yearOfDay 1970 n).1 1 (yearOfDay 1970 n).2).1
    omega

theorem civilFromDay_succ (n : Nat) : civilFromDay (n + 1) = nextDay (civilFromDay n) := by
  have hy := yearOfDay_snd_lt n 1970
  have hmon := monthOfDay_invariant 11 (yearOfDay 1970 n).1 1 (yearOfDay 1970 n).2 rfl
    (by omega) (by omega) (by rw [monthsTailSum_one]; exact hy)
  obtain ⟨hm1, hm12, hdom, hsum⟩ := hmon
  rw [monthsTailSum_one] at hsum
  rw [civilFromDay_def, civilFromDay_def, nextDay_mk]
  rw [yearOfDay_succ n 1970]
  by_cases hyr : (yearOfDay 1970 n).2 + 1 < daysInYear (yearOfDay 1970 n).1
  · rw [if_pos hyr]
    rw [monthOfDay_succ 11 (yearOfDay 1970 n).1 1 (yearOfDay 1970 n).2 rfl (by omega) (by omega)
      (by rw [monthsTailSum_one]; exact hyr)]
    by_cases hdm : (monthOfDay (yearOfDay 1970 n).1 1 (yearOfDay 1970 n).2).2 + 1 <
        daysInMonth (yearOfDay 1970 n).1 (monthOfDay (yearOfDay 1970 n).1 1 (yearOfDay 1970 n).2).1
    · rw [if_pos hdm, if_pos hdm]
    · rw [if_neg hdm, if_neg hdm]
      have hM12 : (monthOfDay (yearOfDay 1970 n).1 1 (yearOfDay 1970 n).2).1 < 12 := by
        by_contra hc
        have hMeq : (monthOfDay (yearOfDay 1970 n).1 1 (yearOfDay 1970 n).2).1 = 12 := by omega
        rw [hMeq] at hsum hdm hdom
        rw [monthsTailSum_thirteen] at hsum
        omega
      rw [if_pos hM12]
  · rw [if_neg hyr]
    have hM12 : (monthOfDay (yearOfDay 1970 n).1 1 (yearOfDay 1970 n).2).1 = 12 := by
      by_contra hc
      have hpos := monthsTailSum_pos (yearOfDay 1970 n).1
        ((monthOfDay (yearOfDay 1970 n).1 1 (yearOfDay 1970 n).2).1 + 1) (by omega)
      omega
    have hdend : ¬ ((monthOfDay (yearOfDay 1970 n).1 1 (yearOfDay 1970 n).2).2 + 1 <
        daysInMonth (yearOfDay 1970 n).1 (monthOfDay (yearOfDay 1970 n).1 1 (yearOfDay 1970 n).2).1) := by
      rw [hM12] at hsum hdom ⊢
      rw [monthsTailSum_thirteen] at hsum
      omega
    rw [if_neg hdend]
    rw [if_neg (show ¬ ((monthOfDay (yearOfDay 1970 n).1 1 (yearOfDay 1970 n).2).1 < 12) from by omega)]
    show (⟨(yearOfDay 1970 n).1 + 1, (monthOfDay ((yearOfDay 1970 n).1 + 1) 1 0).1,
      (monthOfDay ((yearOfDay 1970 n).1 + 1) 1 0).2 + 1⟩ : Date) = _
    rw [monthOfDay_zero]

theorem civilFromDay_add (n : Nat) : ∀ k, civilFromDay (n + k) = nextDay^[k] (civilFromDay n) := by
  intro k
  induction k with
  | zero => rfl
  | succ k ih =>
    rw [show n + (k + 1) = (n + k) + 1 from rfl, civilFromDay_succ, ih,
      Function.iterate_succ_apply']

theorem validDate_mk (y m d : Nat) :
    ValidDate ⟨y, m, d⟩ ↔ (1 ≤ m ∧ m ≤ 12 ∧ 1 ≤ d ∧ d ≤ daysInMonth y m) := Iff.rfl

theorem rankD_mk (y m d : Nat) : rankD ⟨y, m, d⟩ = (y * 12 + m) * 32 + d := rfl

theorem nextDay_valid (d : Date) (h : ValidDate d) : ValidDate (nextDay d) := by
  obtain ⟨h1, h2, h3, h4⟩ := h
  rw [nextDay]
  split
  · next hlt => exact (validDate_mk _ _ _).mpr ⟨h1, h2, by omega, by omega⟩
  · split
    · exact (validDate_mk _ _ _).mpr ⟨by omega, by omega, by omega, daysInMonth_pos _ _⟩
    · exact (validDate_mk _ _ _).mpr ⟨by omega, by omega, by omega, daysInMonth_pos _ _⟩

theorem rankD_lt_nextDay (d : Date) (h : ValidDate d) : rankD d < rankD (nextDay d) := by
  obtain ⟨h1, h2, h3, h4⟩ := h
  have h31 := daysInMonth_le_31 d.year d.month
  rw [nextDay]
  split
  · simp only [rankD]; omega
  · split
    · simp only [rankD]; omega
    · simp only [rankD]; omega

theorem dLe_iff_rank (a b : Date) (ha : ValidDate a) (hb : ValidDate b) :
    dLe a b ↔ rankD a ≤ rankD b := by
  obtain ⟨ha1, ha2, ha3, ha4⟩ := ha
  obtain ⟨hb1, hb2, hb3, hb4⟩ := hb
  have ha31 := daysInMonth_le_31 a.year a.month
  have hb31 := daysInMonth_le_31 b.year b.month
  unfold dLe rankD
  omega

theorem rankD_civil_mono (i j : Nat) (h : i < j) : rankD (civilFromDay i) < rankD (civilFromDay j) := by
  obtain ⟨k, hk⟩ : ∃ k, j = i + (k + 1) := ⟨j - i - 1, by omega⟩
  subst hk
  clear h
  induction k with
  | zero =>
    rw [show i + 1 = i + 1 from rfl, civilFromDay_succ]
    exact rankD_lt_nextDay _ (civilFromDay_valid i)
  | succ k ih =>
    have hs : i + (k + 1 + 1) = (i + (k + 1)) + 1 := by omega
    rw [hs, civilFromDay_succ]
    exact lt_trans ih (rankD_lt_nextDay _ (civilFromDay_valid _))

theorem dLe_civil_iff (i j : Nat) : dLe (civilFromDay i) (civilFromDay j) ↔ i ≤ j := by
  constructor
  · intro h
    by_contra hc
    have hlt := rankD_civil_mono j i (by omega)
    have := (dLe_iff_rank _ _ (civilFromDay_valid i) (civilFromDay_valid j)).mp h
    omega
  · intro h
    rcases Nat.eq_or_lt_of_le h with he | hlt
    · subst he
      exact (dLe_iff_rank _ _ (civilFromDay_valid i) (civilFromDay_valid i)).mpr (le_refl _)
    · exact (dLe_iff_rank _ _ (civilFromDay_valid i) (civilFromDay_valid j)).mpr
        (le_of_lt (rankD_civil_mono i j hlt))

theorem civilFromDay_injective (i j : Nat) (h : civilFromDay i = civilFromDay j) : i = j := by
  by_contra hc
  rcases Nat.lt_or_ge i j with hlt | hge
  · have := rankD_civil_mono i j hlt
    rw [h] at this
    omega
  · have hlt : j < i := by omega
    have := rankD_civil_mono j i hlt
    rw [h] at this
    omega

/-- Decimal digit character (callers only pass values below 10; the
fallback keeps the range inside the digit characters). -/
def digitChar (n : Nat) : Char :=
  match n with
  | 0 => '0' | 1 => '1' | 2 => '2' | 3 => '3' | 4 => '4'
  | 5 => '5' | 6 => '6' | 7 => '7' | 8 => '8' | 9 => '9'
  | _ => '0'

/-- Numeric value of a digit character. -/
def digitVal (c : Char) : Nat :=
  match c with
  | '0' => 0 | '1' => 1 | '2' => 2 | '3' => 3 | '4' => 4
  | '5' => 5 | '6' => 6 | '7' => 7 | '8' => 8 | '9' => 9
  | _ => 0

/-- Structural worker for `digitChars`. -/
def digitCharsAux (fuel n : Nat) : List Char :=
  match fuel with
  | 0 => []
  | fuel + 1 =>
    if n < 10 then [digitChar n] else digitCharsAux fuel (n / 10) ++ [digitChar (n % 10)]

/-- Decimal representation of a natural number, most significant digit
first (no padding). -/
def digitChars (n : Nat) : List Char := digitCharsAux (n + 1) n

theorem digitCharsAux_stable : ∀ n f g, n < f → n < g →
    digitCharsAux f n = digitCharsAux g n := by
  intro n
  induction n using Nat.strong_induction_on with
  | _ n ih =>
    intro f g hf hg
    cases f with
    | zero => omega
    | succ f =>
      cases g with
      | zero => omega
      | succ g =>
        simp only [digitCharsAux]
        by_cases h : n < 10
        · rw [if_pos h, if_pos h]
        · rw [if_neg h, if_neg h]
          have hdiv : n / 10 < n := Nat.div_lt_self (by omega) (by omega)
          rw [ih (n / 10) hdiv f g (by omega) (by omega)]

theorem digitChars_unfold (n : Nat) :
    digitChars n = if n < 10 then [digitChar n]
      else digitChars (n / 10) ++ [digitChar (n % 10)] := by
  show digitCharsAux (n + 1) n = _
  simp only [digitCharsAux]
  by_cases h : n < 10
  · rw [if_pos h, if_pos h]
  · rw [if_neg h, if_neg h]
    have hdiv : n / 10 < n := Nat.div_lt_self (by omega) (by omega)
    rw [digitCharsAux_stable (n / 10) n ((n / 10) + 1) (by omega) (by omega)]
    rfl

/-- Two-digit zero-padded representation (moment's `MM` / `DD`). -/
def pad2 (n : Nat) : List Char :=
  if n < 10 then ['0', digitChar n] else digitChars n

/-- The ten digit characters. -/
def digitList : List Char := ['0', '1', '2', '3', '4', '5', '6', '7', '8', '9']

/-- Value of a digit string, most significant first. -/
def valOfDigits (l : List Char) : Nat :=
  l.foldl (fun a c => a * 10 + digitVal c) 0

theorem digitChar_mem (n : Nat) : digitChar n ∈ digitList := by
  unfold digitChar
  split <;> decide

theorem mem_digitChars (n : Nat) : ∀ c ∈ digitChars n, c ∈ digitList := by
  induction n using Nat.strong_induction_on with
  | _ n ih =>
    intro c hc
    rw [digitChars_unfold] at hc
    by_cases h : n < 10
    · rw [if_pos h] at hc
      rcases List.mem_singleton.mp hc with he
      exact he ▸ digitChar_mem n
    · rw [if_neg h] at hc
      rcases List.mem_append.mp hc with h1 | h1
      · exact ih (n / 10) (Nat.div_lt_self (by omega) (by omega)) c h1
      · rcases List.mem_singleton.mp h1 with he
        exact he ▸ digitChar_mem (n % 10)

theorem mem_pad2 (n : Nat) : ∀ c ∈ pad2 n, c ∈ digitList := by
  intro c hc
  rw [pad2] at hc
  by_cases h : n < 10
  · rw [if_pos h] at hc
    rcases List.mem_cons.mp hc with he | he
    · subst he; decide
    · rcases List.mem_singleton.mp he with he2
      exact he2 ▸ digitChar_mem n
  · rw [if_neg h] at hc
    exact mem_digitChars n c hc

theorem digitVal_digitChar : ∀ n, n < 10 → digitVal (digitChar n) = n := by decide

theorem valOfDigits_digitChars (n : Nat) : valOfDigits (digitChars n) = n := by
  induction n using Nat.strong_induction_on with
  | _ n ih =>
    rw [digitChars_unfold]
    by_cases h : n < 10
    · rw [if_pos h]
      show 0 * 10 + digitVal (digitChar n) = n
      rw [digitVal_digitChar n h]
      omega
    · rw [if_neg h]
      unfold valOfDigits
      rw [List.foldl_append]
      show (valOfDigits (digitChars (n / 10))) * 10 + digitVal (digitChar (n % 10)) = n
      rw [ih (n / 10) (Nat.div_lt_self (by omega) (by omega)),
        digitVal_digitChar (n % 10) (by omega)]
      omega

theorem valOfDigits_pad2 (n : Nat) : valOfDigits (pad2 n) = n := by
  rw [pad2]
  by_cases h : n < 10
  · rw [if_pos h]
    show (0 * 10 + digitVal '0') * 10 + digitVal (digitChar n) = n
    rw [digitVal_digitChar n h, show digitVal '0' = 0 from rfl]
    omega
  · rw [if_neg h]
    exact valOfDigits_digitChars n

/-- Tokens pushed into `suffexes` by `indexesByTimeRange`, before rendering
into strings: concrete day/month/year labels and the two group-selector
forms. -/
inductive Tok where
  | day : Date → Tok
  | month : Nat → Nat → Tok
  | year : Nat → Tok
  | monthGroup : Nat → Nat → Tok
  | yearGroup : Nat → Tok
deriving DecidableEq, Repr

/-- Year formatted by moment's `YYYY` (all reachable years are ≥ 1970, hence
at least four digits, so no padding is needed). -/
def fmtYYYY (y : Nat) : List Char := digitChars y

/-- Rendering of a token into its `format(...)` string:
`YYYY.MM.DD`, `YYYY.MM`, `YYYY`, `YYYY.MM.*`, `YYYY.*`. -/
def renderTok : Tok → String
  | .day d => String.mk (fmtYYYY d.year ++ '.' :: (pad2 d.month ++ '.' :: pad2 d.day))
  | .month y m => String.mk (fmtYYYY y ++ '.' :: pad2 m)
  | .year y => String.mk (fmtYYYY y)
  | .monthGroup y m => String.mk (fmtYYYY y ++ '.' :: (pad2 m ++ '.' :: ['*']))
  | .yearGroup y => String.mk (fmtYYYY y ++ '.' :: ['*'])

/-- Start of the month after `(y, m)` (moment `add(1,'month').startOf('month')`
applied to a start-of-month moment). -/
def nextMonthStart (y m : Nat) : Date :=
  if m < 12 then ⟨y, m + 1, 1⟩ else ⟨y + 1, 1, 1⟩

/-- Month successor on `(year, month)` pairs. -/
def nextMonthPair (p : Nat × Nat) : Nat × Nat :=
  if p.2 < 12 then (p.1, p.2 + 1) else (p.1 + 1, 1)

/-- The `PeriodType.DAILY` cursor loop of `indexesByTimeRange`.  `fuel` is an
upper bound on the number of iterations (the source loop needs none; fuel
sufficiency is proved below).  Branches mirror the source: a year-group when
the cursor is at January 1 and the whole year fits in the range, then a
month-group when the cursor is at day 1 and the whole month fits, otherwise
a concrete day token. -/
def dailyLoop (fuel : Nat) (gs : Bool) (cursor endD : Date) : List Tok :=
  match fuel with
  | 0 => []
  | fuel + 1 =>
    if dLe cursor endD then
      if gs = true ∧ cursor.month = 1 ∧ cursor.day = 1 ∧ dLe ⟨cursor.year, 12, 31⟩ endD then
        Tok.yearGroup cursor.year :: dailyLoop fuel gs ⟨cursor.year + 1, 1, 1⟩ endD
      else if gs = true ∧ cursor.day = 1 ∧
          dLe ⟨cursor.year, cursor.month, daysInMonth cursor.year cursor.month⟩ endD then
        Tok.monthGroup cursor.year cursor.month ::
          dailyLoop fuel gs (nextMonthStart cursor.year cursor.month) endD
      else
        Tok.day cursor :: dailyLoop fuel gs (nextDay cursor) endD
    else []

/-- The `PeriodType.MONTHLY` cursor loop of `indexesByTimeRange`, over
`(year, month)` pairs: a year-group when the cursor is at January and the
whole year fits in the range, otherwise a concrete month token. -/
def monthlyLoop (fuel : Nat) (gs : Bool) (cursor endP : Nat × Nat) : List Tok :=
  match fuel with
  | 0 => []
  | fuel + 1 =>
    if pLe cursor endP then
      if gs = true ∧ cursor.2 = 1 ∧ pLe (cursor.1, 12) endP then
        Tok.yearGroup cursor.1 :: monthlyLoop fuel gs (cursor.1 + 1, 1) endP
      else
        Tok.month cursor.1 cursor.2 :: monthlyLoop fuel gs (nextMonthPair cursor) endP
    else []

/-- The `PeriodType.YEARLY` cursor loop of `indexesByTimeRange` (it never
groups). -/
def yearlyLoop (fuel : Nat) (cursor endY : Nat) : List Tok :=
  match fuel with
  | 0 => []
  | fuel + 1 =>
    if cursor ≤ endY then Tok.year cursor :: yearlyLoop fuel (cursor + 1) endY
    else []

/-- Structural worker for `dedupFirst`. -/
def dedupFirstAux (fuel : Nat) (l : List String) : List String :=
  match fuel, l with
  | _, [] => []
  | 0, _ :: _ => []
  | fuel + 1, x :: xs => x :: dedupFirstAux fuel (xs.filter (fun y => decide (y ≠ x)))

/-- JS `[...new Set(xs)]`: deduplication keeping the first occurrence of
each element, in order. -/
def dedupFirst (l : List String) : List String := dedupFirstAux l.length l

theorem dedupFirstAux_stable : ∀ f l g, l.length ≤ f → l.length ≤ g →
    dedupFirstAux f l = dedupFirstAux g l := by
  intro f
  induction f with
  | zero =>
    intro l g hf hg
    cases l with
    | nil => cases g <;> rfl
    | cons x xs => simp at hf
  | succ f ih =>
    intro l g hf hg
    cases l with
    | nil => cases g <;> rfl
    | cons x xs =>
      cases g with
      | zero => simp at hg
      | succ g =>
        simp only [dedupFirstAux, List.cons.injEq, true_and]
        have hfl := List.length_filter_le (fun y => decide (y ≠ x)) xs
        simp only [List.length_cons] at hf hg
        exact ih (xs.filter (fun y => decide (y ≠ x))) g (by omega) (by omega)

theorem dedupFirst_nil : dedupFirst [] = [] := rfl

theorem dedupFirst_cons (x : String) (xs : List String) :
    dedupFirst (x :: xs) = x :: dedupFirst (xs.filter (fun y => decide (y ≠ x))) := by
  show dedupFirstAux (xs.length + 1) (x :: xs) = _
  simp only [dedupFirstAux, List.cons.injEq, true_and]
  exact dedupFirstAux_stable xs.length _ _ (List.length_filter_le _ _) (le_refl _)

/-- The index partition period, modelling the external `@diff./period-type`
enum: the three members used by the source plus a constructor standing for
any other member of the external enum (carrying its string form, used in the
error message of the default branch). -/
inductive PeriodType where
  | DAILY : PeriodType
  | MONTHLY : PeriodType
  | YEARLY : PeriodType
  | other : String → PeriodType
deriving DecidableEq, Repr

/-- JS string coercion of a `PeriodType` value as used in the `RangeError`
message. -/
def periodTypeStr : PeriodType → String
  | .DAILY => "DAILY"
  | .MONTHLY => "MONTHLY"
  | .YEARLY => "YEARLY"
  | .other s => s

/-- Embedding of `EsRepository.indexesByTimeRange`: validate the range,
walk the period cursor for the requested granularity collecting suffix
tokens, deduplicate them (`[...new Set(suffexes)]`) and prefix each with
`pre`.  Throws `InvalidTimeRangeError` for `endAt < startAt` before any
granularity dispatch and `RangeError` for an unsupported granularity. -/
def indexesByTimeRange (pre : String) (startAt endAt : Nat) (splitPeriodType : PeriodType)
    (enableGroupSelect : Bool) : Except RepoError (List String) :=
  if endAt < startAt then
    Except.error (RepoError.invalidTimeRange "endAt 은 startAt 이후로 지정되어야 합니다.")
  else
    match splitPeriodType with
    | PeriodType.YEARLY =>
      Except.ok ((dedupFirst
        ((yearlyLoop (dayIdx endAt + 2) (dateOf startAt).year (dateOf endAt).year).map
          renderTok)).map (fun v => pre ++ v))
    | PeriodType.MONTHLY =>
      Except.ok ((dedupFirst
        ((monthlyLoop (dayIdx endAt + 2) enableGroupSelect
          ((dateOf startAt).year, (dateOf startAt).month)
          ((dateOf endAt).year, (dateOf endAt).month)).map renderTok)).map (fun v => pre ++ v))
    | PeriodType.DAILY =>
      Except.ok ((dedupFirst
        ((dailyLoop (dayIdx endAt + 2) enableGroupSelect (dateOf startAt)
          (dateOf endAt)).map renderTok)).map (fun v => pre ++ v))
    | PeriodType.other s =>
      Except.error (RepoError.rangeError
        ("동작이 정의되지 않은 periodType 입니다. " ++ periodTypeStr (PeriodType.other s)))

/-- Embedding of `EsRepository.indexSelectorByTimeRange` (current version):
join the resolved index names with `,`; group selection stays enabled and
there is no token-count fallback. -/
def indexSelectorByTimeRange (pre : String) (startAt endAt : Nat)
    (splitPeriodType : PeriodType) : Except RepoError String :=
  (indexesByTimeRange pre startAt endAt splitPeriodType true).map
    (fun l => String.intercalate "," l)

/-- Claim C7: for every prefix, every pair of epoch-second timestamps with
`endAt < startAt`, and every granularity value (supported or not),
`indexesByTimeRange` fails with `InvalidTimeRangeError` and produces no
tokens; the range check precedes the granularity dispatch. -/
theorem indexesByTimeRange_invalid_range (pre : String) (startAt endAt : Nat)
    (g : PeriodType) (gs : Bool) (h : endAt < startAt) :
    indexesByTimeRange pre startAt endAt g gs =
      Except.error (RepoError.invalidTimeRange "endAt 은 startAt 이후로 지정되어야 합니다.") := by
  unfold indexesByTimeRange
  rw [if_pos h]

/-- Witness for C7 at a concrete reversed range and an unsupported
granularity value. -/
theorem indexesByTimeRange_invalid_range_witness :
    indexesByTimeRange "test_" 10 5 (PeriodType.other "HOURLY") true =
      Except.error (RepoError.invalidTimeRange "endAt 은 startAt 이후로 지정되어야 합니다.") :=
  indexesByTimeRange_invalid_range "test_" 10 5 (PeriodType.other "HOURLY") true (by omega)

/-- Claim C8: for every valid range, every granularity outside the three
supported ones fails with the `RangeError` (`UnsupportedGranularityError`),
and each of the three supported granularities succeeds. -/
theorem indexesByTimeRange_granularity (pre : String) (startAt endAt : Nat) (gs : Bool)
    (h : startAt ≤ endAt) :
    (∀ name, indexesByTimeRange pre startAt endAt (PeriodType.other name) gs =
      Except.error (RepoError.rangeError ("동작이 정의되지 않은 periodType 입니다. " ++ name)))
    ∧ (∀ g ∈ [PeriodType.DAILY, PeriodType.MONTHLY, PeriodType.YEARLY],
        ∃ l, indexesByTimeRange pre startAt endAt g gs = Except.ok l) := by
  constructor
  · intro name
    unfold indexesByTimeRange
    rw [if_neg (by omega)]
    rfl
  · intro g hg
    simp only [List.mem_cons, List.mem_singleton] at hg
    rcases hg with hg | hg | hg | hg
    · subst hg
      exact ⟨_, by unfold indexesByTimeRange; rw [if_neg (by omega)]⟩
    · subst hg
      exact ⟨_, by unfold indexesByTimeRange; rw [if_neg (by omega)]⟩
    · subst hg
      exact ⟨_, by unfold indexesByTimeRange; rw [if_neg (by omega)]⟩
    · exact absurd hg (by simp)

/-- Witness for C8 at a concrete valid range. -/
theorem indexesByTimeRange_granularity_witness :
    (indexesByTimeRange "test_" 5 10 (PeriodType.other "HOURLY") true =
      Except.error (RepoError.rangeError ("동작이 정의되지 않은 periodType 입니다. " ++ "HOURLY")))
    ∧ ∃ l, indexesByTimeRange "test_" 5 10 PeriodType.DAILY true = Except.ok l := by
  have h := indexesByTimeRange_granularity "test_" 5 10 true (by omega)
  exact ⟨h.1 "HOURLY", h.2 PeriodType.DAILY (by simp)⟩

theorem dailyLoop_nogroup (fuel : Nat) : ∀ i j, j + 1 - i ≤ fuel →
    dailyLoop fuel false (civilFromDay i) (civilFromDay j) =
      (List.range' i (j + 1 - i)).map (fun k => Tok.day (civilFromDay k)) := by
  induction fuel with
  | zero =>
    intro i j h
    have h0 : j + 1 - i = 0 := by omega
    rw [h0]
    rfl
  | succ fuel ih =>
    intro i j h
    by_cases hij : i ≤ j
    · have hcond := (dLe_civil_iff i j).mpr hij
      simp only [dailyLoop]
      rw [if_pos hcond, if_neg (by simp), if_neg (by simp)]
      rw [← civilFromDay_succ, ih (i + 1) j (by omega)]
      have h1 : j + 1 - i = (j - i) + 1 := by omega
      have h2 : j + 1 - (i + 1) = j - i := by omega
      rw [h1, h2, List.range'_succ]
      rfl
    · have hcond : ¬ dLe (civilFromDay i) (civilFromDay j) :=
        fun hc => hij ((dLe_civil_iff i j).mp hc)
      simp only [dailyLoop]
      rw [if_neg hcond]
      have h0 : j + 1 - i = 0 := by omega
      rw [h0]
      rfl

theorem pLe_pairIdx_iff (i j : Nat) :
    pLe (i / 12, i % 12 + 1) (j / 12, j % 12 + 1) ↔ i ≤ j := by
  show i / 12 < j / 12 ∨ (i / 12 = j / 12 ∧ i % 12 + 1 ≤ j % 12 + 1) ↔ i ≤ j
  omega

theorem nextMonthPair_pairIdx (i : Nat) :
    nextMonthPair (i / 12, i % 12 + 1) = ((i + 1) / 12, (i + 1) % 12 + 1) := by
  unfold nextMonthPair
  by_cases h : i % 12 + 1 < 12
  · rw [if_pos (show (i / 12, i % 12 + 1).2 < 12 from h)]
    have h1 : (i + 1) / 12 = i / 12 := by omega
    have h2 : (i + 1) % 12 = i % 12 + 1 := by omega
    rw [h1, h2]
  · rw [if_neg (show ¬ (i / 12, i % 12 + 1).2 < 12 from h)]
    have h1 : (i + 1) / 12 = i / 12 + 1 := by omega
    have h2 : (i + 1) % 12 = 0 := by omega
    rw [h1, h2]

theorem monthlyLoop_nogroup (fuel : Nat) : ∀ i j, j + 1 - i ≤ fuel →
    monthlyLoop fuel false (i / 12, i % 12 + 1) (j / 12, j % 12 + 1) =
      (List.range' i (j + 1 - i)).map (fun k => Tok.month (k / 12) (k % 12 + 1)) := by
  induction fuel with
  | zero =>
    intro i j h
    have h0 : j + 1 - i = 0 := by omega
    rw [h0]
    rfl
  | succ fuel ih =>
    intro i j h
    by_cases hij : i ≤ j
    · have hcond := (pLe_pairIdx_iff i j).mpr hij
      simp only [monthlyLoop]
      rw [if_pos hcond, if_neg (by simp)]
      rw [nextMonthPair_pairIdx, ih (i + 1) j (by omega)]
      have h1 : j + 1 - i = (j - i) + 1 := by omega
      have h2 : j + 1 - (i + 1) = j - i := by omega
      rw [h1, h2, List.range'_succ]
      rfl
    · have hcond : ¬ pLe (i / 12, i % 12 + 1) (j / 12, j % 12 + 1) :=
        fun hc => hij ((pLe_pairIdx_iff i j).mp hc)
      simp only [monthlyLoop]
      rw [if_neg hcond]
      have h0 : j + 1 - i = 0 := by omega
      rw [h0]
      rfl

theorem yearlyLoop_spec (fuel : Nat) : ∀ a b, b + 1 - a ≤ fuel →
    yearlyLoop fuel a b = (List.range' a (b + 1 - a)).map Tok.year := by
  induction fuel with
  | zero =>
    intro a b h
    have h0 : b + 1 - a = 0 := by omega
    rw [h0]
    rfl
  | succ fuel ih =>
    intro a b h
    by_cases hab : a ≤ b
    · simp only [yearlyLoop]
      rw [if_pos hab, ih (a + 1) b (by omega)]
      have h1 : b + 1 - a = (b - a) + 1 := by omega
      have h2 : b + 1 - (a + 1) = b - a := by omega
      rw [h1, h2, List.range'_succ]
      rfl
    · simp only [yearlyLoop]
      rw [if_neg hab]
      have h0 : b + 1 - a = 0 := by omega
      rw [h0]
      rfl

theorem nextDay_monthIdx_le (d : Date) :
    (nextDay d).year * 12 + ((nextDay d).month - 1) ≤ d.year * 12 + (d.month - 1) + 1 := by
  rw [nextDay]
  split
  · show d.year * 12 + (d.month - 1) ≤ d.year * 12 + (d.month - 1) + 1
    omega
  · split
    · show d.year * 12 + (d.month + 1 - 1) ≤ d.year * 12 + (d.month - 1) + 1
      omega
    · next h1 h2 =>
      show (d.year + 1) * 12 + (1 - 1) ≤ d.year * 12 + (d.month - 1) + 1
      omega

theorem nextDay_year_le (d : Date) : (nextDay d).year ≤ d.year + 1 := by
  rw [nextDay]
  split
  · show d.year ≤ d.year + 1
    omega
  · split
    · show d.year ≤ d.year + 1
      omega
    · show d.year + 1 ≤ d.year + 1
      omega

theorem civil_monthIdx_add (n : Nat) : ∀ k,
    (civilFromDay (n + k)).year * 12 + ((civilFromDay (n + k)).month - 1)
      ≤ (civilFromDay n).year * 12 + ((civilFromDay n).month - 1) + k := by
  intro k
  induction k with
  | zero => simp
  | succ k ih =>
    have hs : n + (k + 1) = (n + k) + 1 := rfl
    rw [hs, civilFromDay_succ]
    have := nextDay_monthIdx_le (civilFromDay (n + k))
    omega

theorem civil_year_add (n : Nat) : ∀ k,
    (civilFromDay (n + k)).year ≤ (civilFromDay n).year + k := by
  intro k
  induction k with
  | zero => simp
  | succ k ih =>
    have hs : n + (k + 1) = (n + k) + 1 := rfl
    rw [hs, civilFromDay_succ]
    have := nextDay_year_le (civilFromDay (n + k))
    omega

theorem dot_not_mem_digitChars (n : Nat) : '.' ∉ digitChars n := by
  intro h
  have := mem_digitChars n _ h
  revert this
  decide

theorem star_not_mem_digitChars (n : Nat) : '*' ∉ digitChars n := by
  intro h
  have := mem_digitChars n _ h
  revert this
  decide

theorem dot_not_mem_pad2 (n : Nat) : '.' ∉ pad2 n := by
  intro h
  have := mem_pad2 n _ h
  revert this
  decide

theorem star_not_mem_pad2 (n : Nat) : '*' ∉ pad2 n := by
  intro h
  have := mem_pad2 n _ h
  revert this
  decide

/-- Split a character list on `'.'` (groups between dots, in order). -/
def splitOnDot : List Char → List (List Char)
  | [] => [[]]
  | c :: cs =>
    if c = '.' then [] :: splitOnDot cs
    else
      match splitOnDot cs with
      | [] => [[c]]
      | g :: gs => (c :: g) :: gs

theorem splitOnDot_ne_nil (l : List Char) : splitOnDot l ≠ [] := by
  cases l with
  | nil => simp [splitOnDot]
  | cons c cs =>
    rw [splitOnDot]
    by_cases h : c = '.'
    · rw [if_pos h]; simp
    · rw [if_neg h]
      cases hs : splitOnDot cs <;> simp

theorem splitOnDot_nodot (a : List Char) (h : '.' ∉ a) : splitOnDot a = [a] := by
  induction a with
  | nil => rfl
  | cons c cs ih =>
    rw [splitOnDot, if_neg (by intro hc; exact h (hc ▸ List.mem_cons_self c cs))]
    rw [ih (fun hm => h (List.mem_cons_of_mem c hm))]

theorem splitOnDot_append (a : List Char) (h : '.' ∉ a) (b : List Char) :
    splitOnDot (a ++ '.' :: b) = a :: splitOnDot b := by
  induction a with
  | nil =>
    rw [List.nil_append, splitOnDot, if_pos rfl]
  | cons c cs ih =>
    rw [List.cons_append, splitOnDot,
      if_neg (by intro hc; exact h (hc ▸ List.mem_cons_self c cs))]
    rw [ih (fun hm => h (List.mem_cons_of_mem c hm))]

theorem dot_not_mem_fmtYYYY (y : Nat) : '.' ∉ fmtYYYY y := dot_not_mem_digitChars y

theorem star_not_mem_fmtYYYY (y : Nat) : '*' ∉ fmtYYYY y := star_not_mem_digitChars y

theorem fmtYYYY_inj (a b : Nat) (h : fmtYYYY a = fmtYYYY b) : a = b := by
  have hv := congrArg valOfDigits h
  rwa [show fmtYYYY a = digitChars a from rfl, show fmtYYYY b = digitChars b from rfl,
    valOfDigits_digitChars, valOfDigits_digitChars] at hv

theorem pad2_inj (a b : Nat) (h : pad2 a = pad2 b) : a = b := by
  have hv := congrArg valOfDigits h
  rwa [valOfDigits_pad2, valOfDigits_pad2] at hv

theorem splitRender_day (y m d : Nat) :
    splitOnDot (renderTok (Tok.day ⟨y, m, d⟩)).data = [fmtYYYY y, pad2 m, pad2 d] := by
  show splitOnDot (fmtYYYY y ++ '.' :: (pad2 m ++ '.' :: pad2 d)) = _
  rw [splitOnDot_append _ (dot_not_mem_fmtYYYY y),
    splitOnDot_append _ (dot_not_mem_pad2 m),
    splitOnDot_nodot _ (dot_not_mem_pad2 d)]

theorem splitRender_month (y m : Nat) :
    splitOnDot (renderTok (Tok.month y m)).data = [fmtYYYY y, pad2 m] := by
  show splitOnDot (fmtYYYY y ++ '.' :: pad2 m) = _
  rw [splitOnDot_append _ (dot_not_mem_fmtYYYY y),
    splitOnDot_nodot _ (dot_not_mem_pad2 m)]

theorem splitRender_year (y : Nat) :
    splitOnDot (renderTok (Tok.year y)).data = [fmtYYYY y] := by
  show splitOnDot (fmtYYYY y) = _
  rw [splitOnDot_nodot _ (dot_not_mem_fmtYYYY y)]

theorem splitRender_monthGroup (y m : Nat) :
    splitOnDot (renderTok (Tok.monthGroup y m)).data = [fmtYYYY y, pad2 m, ['*']] := by
  show splitOnDot (fmtYYYY y ++ '.' :: (pad2 m ++ '.' :: ['*'])) = _
  rw [splitOnDot_append _ (dot_not_mem_fmtYYYY y),
    splitOnDot_append _ (dot_not_mem_pad2 m),
    splitOnDot_nodot _ (by decide)]

theorem splitRender_yearGroup (y : Nat) :
    splitOnDot (renderTok (Tok.yearGroup y)).data = [fmtYYYY y, ['*']] := by
  show splitOnDot (fmtYYYY y ++ '.' :: ['*']) = _
  rw [splitOnDot_append _ (dot_not_mem_fmtYYYY y),
    splitOnDot_nodot _ (by decide)]

theorem renderTok_inj (t1 t2 : Tok) (h : renderTok t1 = renderTok t2) : t1 = t2 := by
  have hd : splitOnDot (renderTok t1).data = splitOnDot (renderTok t2).data := by rw [h]
  cases t1 with
  | day d1 =>
    obtain ⟨y1, m1, dd1⟩ := d1
    rw [splitRender_day] at hd
    cases t2 with
    | day d2 =>
      obtain ⟨y2, m2, dd2⟩ := d2
      rw [splitRender_day] at hd
      simp only [List.cons.injEq, and_true] at hd
      rw [fmtYYYY_inj _ _ hd.1, pad2_inj _ _ hd.2.1, pad2_inj _ _ hd.2.2]
    | month y2 m2 =>
      rw [splitRender_month] at hd
      have hl := congrArg List.length hd
      simp at hl
    | year y2 =>
      rw [splitRender_year] at hd
      have hl := congrArg List.length hd
      simp at hl
    | monthGroup y2 m2 =>
      rw [splitRender_monthGroup] at hd
      simp only [List.cons.injEq, and_true] at hd
      have hstar : '*' ∈ pad2 dd1 := by rw [hd.2.2]; simp
      exact absurd hstar (star_not_mem_pad2 dd1)
    | yearGroup y2 =>
      rw [splitRender_yearGroup] at hd
      have hl := congrArg List.length hd
      simp at hl
  | month y1 m1 =>
    rw [splitRender_month] at hd
    cases t2 with
    | day d2 =>
      obtain ⟨y2, m2, dd2⟩ := d2
      rw [splitRender_day] at hd
      have hl := congrArg List.length hd
      simp at hl
    | month y2 m2 =>
      rw [splitRender_month] at hd
      simp only [List.cons.injEq, and_true] at hd
      rw [fmtYYYY_inj _ _ hd.1, pad2_inj _ _ hd.2]
    | year y2 =>
      rw [splitRender_year] at hd
      have hl := congrArg List.length hd
      simp at hl
    | monthGroup y2 m2 =>
      rw [splitRender_monthGroup] at hd
      have hl := congrArg List.length hd
      simp at hl
    | yearGroup y2 =>
      rw [splitRender_yearGroup] at hd
      simp only [List.cons.injEq, and_true] at hd
      have hstar : '*' ∈ pad2 m1 := by rw [hd.2]; simp
      exact absurd hstar (star_not_mem_pad2 m1)
  | year y1 =>
    rw [splitRender_year] at hd
    cases t2 with
    | day d2 =>
      obtain ⟨y2, m2, dd2⟩ := d2
      rw [splitRender_day] at hd
      have hl := congrArg List.length hd
      simp at hl
    | month y2 m2 =>
      rw [splitRender_month] at hd
      have hl := congrArg List.length hd
      simp at hl
    | year y2 =>
      rw [splitRender_year] at hd
      simp only [List.cons.injEq, and_true] at hd
      rw [fmtYYYY_inj _ _ hd]
    | monthGroup y2 m2 =>
      rw [splitRender_monthGroup] at hd
      have hl := congrArg List.length hd
      simp at hl
    | yearGroup y2 =>
      rw [splitRender_yearGroup] at hd
      have hl := congrArg List.length hd
      simp at hl
  | monthGroup y1 m1 =>
    rw [splitRender_monthGroup] at hd
    cases t2 with
    | day d2 =>
      obtain ⟨y2, m2, dd2⟩ := d2
      rw [splitRender_day] at hd
      simp only [List.cons.injEq, and_true] at hd
      have hstar : '*' ∈ pad2 dd2 := by rw [← hd.2.2]; simp
      exact absurd hstar (star_not_mem_pad2 dd2)
    | month y2 m2 =>
      rw [splitRender_month] at hd
      have hl := congrArg List.length hd
      simp at hl
    | year y2 =>
      rw [splitRender_year] at hd
      have hl := congrArg List.length hd
      simp at hl
    | monthGroup y2 m2 =>
      rw [splitRender_monthGroup] at hd
      simp only [List.cons.injEq, and_true] at hd
      rw [fmtYYYY_inj _ _ hd.1, pad2_inj _ _ hd.2]
    | yearGroup y2 =>
      rw [splitRender_yearGroup] at hd
      have hl := congrArg List.length hd
      simp at hl
  | yearGroup y1 =>
    rw [splitRender_yearGroup] at hd
    cases t2 with
    | day d2 =>
      obtain ⟨y2, m2, dd2⟩ := d2
      rw [splitRender_day] at hd
      have hl := congrArg List.length hd
      simp at hl
    | month y2 m2 =>
      rw [splitRender_month] at hd
      simp only [List.cons.injEq, and_true] at hd
      have hstar : '*' ∈ pad2 m2 := by rw [← hd.2]; simp
      exact absurd hstar (star_not_mem_pad2 m2)
    | year y2 =>
      rw [splitRender_year] at hd
      have hl := congrArg List.length hd
      simp at hl
    | monthGroup y2 m2 =>
      rw [splitRender_monthGroup] at hd
      have hl := congrArg List.length hd
      simp at hl
    | yearGroup y2 =>
      rw [splitRender_yearGroup] at hd
      simp only [List.cons.injEq, and_true] at hd
      rw [fmtYYYY_inj _ _ hd]

theorem string_append_left_cancel (p a b : String) (h : p ++ a = p ++ b) : a = b := by
  have hd := congrArg String.data h
  rw [data_append, data_append] at hd
  have hab := List.append_cancel_left hd
  cases a
  cases b
  exact congrArg String.mk hab

theorem mem_dedupFirstAux : ∀ (f : Nat) (l : List String), l.length ≤ f →
    ∀ (a : String), a ∈ dedupFirstAux f l ↔ a ∈ l := by
  intro f
  induction f with
  | zero =>
    intro l hl a
    cases l with
    | nil => rfl
    | cons x xs => simp at hl
  | succ f ih =>
    intro l hl a
    cases l with
    | nil => rfl
    | cons x xs =>
      simp only [dedupFirstAux]
      have hfl := List.length_filter_le (fun y => decide (y ≠ x)) xs
      simp only [List.length_cons] at hl
      have ihf := ih (xs.filter (fun y => decide (y ≠ x))) (by omega)
      constructor
      · intro h
        rcases List.mem_cons.mp h with he | hm
        · exact he ▸ List.mem_cons_self _ _
        · exact List.mem_cons_of_mem _ (List.mem_of_mem_filter ((ihf a).mp hm))
      · intro h
        rcases List.mem_cons.mp h with he | hm
        · exact he ▸ List.mem_cons_self _ _
        · by_cases hax : a = x
          · exact hax ▸ List.mem_cons_self _ _
          · exact List.mem_cons_of_mem _
              ((ihf a).mpr (List.mem_filter.mpr ⟨hm, by simp [hax]⟩))

theorem mem_dedupFirst (l : List String) : ∀ (a : String), a ∈ dedupFirst l ↔ a ∈ l :=
  mem_dedupFirstAux l.length l (le_refl _)

theorem dedupFirst_of_nodup (l : List String) (h : l.Nodup) : dedupFirst l = l := by
  induction l with
  | nil => rw [dedupFirst_nil]
  | cons x xs ih =>
    rw [dedupFirst_cons]
    have hfx : xs.filter (fun y => decide (y ≠ x)) = xs := by
      apply List.filter_eq_self.mpr
      intro a ha
      simp only [decide_eq_true_eq]
      exact fun he => (List.nodup_cons.mp h).1 (he ▸ ha)
    rw [hfx, ih (List.nodup_cons.mp h).2]

theorem dayLabel_injective :
    Function.Injective (fun i => renderTok (Tok.day (civilFromDay i))) := by
  intro i j h
  have ht := renderTok_inj _ _ h
  have hd : civilFromDay i = civilFromDay j := by
    injection ht
  exact civilFromDay_injective i j hd

theorem monthLabel_injective :
    Function.Injective (fun i => renderTok (Tok.month (i / 12) (i % 12 + 1))) := by
  intro i j h
  have ht := renderTok_inj _ _ h
  have h1 : i / 12 = j / 12 := by injection ht
  have h2 : i % 12 + 1 = j % 12 + 1 := by
    have := ht
    injection this with ha hb
  omega

theorem yearLabel_injective : Function.Injective (fun y => renderTok (Tok.year y)) := by
  intro i j h
  have ht := renderTok_inj _ _ h
  injection ht

/-- Month index (months since year 0) of the month containing epoch
second `t`. -/
def monthIdxOf (t : Nat) : Nat := (dateOf t).year * 12 + ((dateOf t).month - 1)

theorem pair_monthIdxOf (t : Nat) :
    ((dateOf t).year, (dateOf t).month) = (monthIdxOf t / 12, monthIdxOf t % 12 + 1) := by
  have hv := civilFromDay_valid (dayIdx t)
  obtain ⟨h1, h2, _, _⟩ := hv
  unfold monthIdxOf dateOf
  rw [Prod.mk.injEq]
  constructor <;> omega

theorem dayIdx_mono (s e : Nat) (h : s ≤ e) : dayIdx s ≤ dayIdx e := by
  unfold dayIdx
  omega

theorem indexes_daily_nogroup (pre : String) (s e : Nat) (h : s ≤ e) :
    indexesByTimeRange pre s e PeriodType.DAILY false =
      Except.ok ((List.range' (dayIdx s) (dayIdx e + 1 - dayIdx s)).map
        (fun i => pre ++ renderTok (Tok.day (civilFromDay i)))) := by
  have harm : indexesByTimeRange pre s e PeriodType.DAILY false =
      Except.ok ((dedupFirst ((dailyLoop (dayIdx e + 2) false (dateOf s)
        (dateOf e)).map renderTok)).map (fun v => pre ++ v)) := by
    unfold indexesByTimeRange
    rw [if_neg (by omega)]
  rw [harm]
  have hloop : dailyLoop (dayIdx e + 2) false (dateOf s) (dateOf e) =
      (List.range' (dayIdx s) (dayIdx e + 1 - dayIdx s)).map
        (fun k => Tok.day (civilFromDay k)) :=
    dailyLoop_nogroup _ (dayIdx s) (dayIdx e) (by omega)
  rw [hloop, List.map_map]
  have hnodup : ((List.range' (dayIdx s) (dayIdx e + 1 - dayIdx s)).map
      (renderTok ∘ fun k => Tok.day (civilFromDay k))).Nodup :=
    List.Nodup.map dayLabel_injective (List.nodup_range' _ _)
  rw [dedupFirst_of_nodup _ hnodup, List.map_map]
  rfl

theorem indexes_monthly_nogroup (pre : String) (s e : Nat) (h : s ≤ e) :
    indexesByTimeRange pre s e PeriodType.MONTHLY false =
      Except.ok ((List.range' (monthIdxOf s) (monthIdxOf e + 1 - monthIdxOf s)).map
        (fun i => pre ++ renderTok (Tok.month (i / 12) (i % 12 + 1)))) := by
  have harm : indexesByTimeRange pre s e PeriodType.MONTHLY false =
      Except.ok ((dedupFirst ((monthlyLoop (dayIdx e + 2) false
        ((dateOf s).year, (dateOf s).month)
        ((dateOf e).year, (dateOf e).month)).map renderTok)).map (fun v => pre ++ v)) := by
    unfold indexesByTimeRange
    rw [if_neg (by omega)]
  rw [harm, pair_monthIdxOf s, pair_monthIdxOf e]
  have hfuel : monthIdxOf e + 1 - monthIdxOf s ≤ dayIdx e + 2 := by
    have hds := dayIdx_mono s e h
    have hadd := civil_monthIdx_add (dayIdx s) (dayIdx e - dayIdx s)
    rw [show dayIdx s + (dayIdx e - dayIdx s) = dayIdx e from by omega] at hadd
    unfold monthIdxOf dateOf
    omega
  rw [monthlyLoop_nogroup _ (monthIdxOf s) (monthIdxOf e) hfuel, List.map_map]
  have hnodup : ((List.range' (monthIdxOf s) (monthIdxOf e + 1 - monthIdxOf s)).map
      (renderTok ∘ fun k => Tok.month (k / 12) (k % 12 + 1))).Nodup :=
    List.Nodup.map monthLabel_injective (List.nodup_range' _ _)
  rw [dedupFirst_of_nodup _ hnodup, List.map_map]
  rfl

theorem indexes_yearly (pre : String) (s e : Nat) (gs : Bool) (h : s ≤ e) :
    indexesByTimeRange pre s e PeriodType.YEARLY gs =
      Except.ok ((List.range' (dateOf s).year ((dateOf e).year + 1 - (dateOf s).year)).map
        (fun y => pre ++ renderTok (Tok.year y))) := by
  have harm : indexesByTimeRange pre s e PeriodType.YEARLY gs =
      Except.ok ((dedupFirst ((yearlyLoop (dayIdx e + 2) (dateOf s).year
        (dateOf e).year).map renderTok)).map (fun v => pre ++ v)) := by
    unfold indexesByTimeRange
    rw [if_neg (by omega)]
  rw [harm]
  have hfuel : (dateOf e).year + 1 - (dateOf s).year ≤ dayIdx e + 2 := by
    have hds := dayIdx_mono s e h
    have hadd := civil_year_add (dayIdx s) (dayIdx e - dayIdx s)
    rw [show dayIdx s + (dayIdx e - dayIdx s) = dayIdx e from by omega] at hadd
    unfold dateOf
    omega
  rw [yearlyLoop_spec _ (dateOf s).year (dateOf e).year hfuel, List.map_map]
  have hnodup : ((List.range' (dateOf s).year ((dateOf e).year + 1 - (dateOf s).year)).map
      (renderTok ∘ Tok.year)).Nodup :=
    List.Nodup.map yearLabel_injective (List.nodup_range' _ _)
  rw [dedupFirst_of_nodup _ hnodup, List.map_map]
  rfl

/-- Index of the period unit containing epoch second `t` at granularity `g`
(epoch day, absolute month number, or calendar year). -/
def unitIdx : PeriodType → Nat → Nat
  | .DAILY, t => dayIdx t
  | .MONTHLY, t => monthIdxOf t
  | .YEARLY, t => (dateOf t).year
  | .other _, _ => 0

/-- Canonical label of period unit `i` at granularity `g` (computed in the
fixed `+09:00` offset): `YYYY.MM.DD`, `YYYY.MM` or `YYYY`. -/
def unitLabel : PeriodType → Nat → String
  | .DAILY, i => renderTok (Tok.day (civilFromDay i))
  | .MONTHLY, i => renderTok (Tok.month (i / 12) (i % 12 + 1))
  | .YEARLY, y => renderTok (Tok.year y)
  | .other _, _ => ""

/-- The tokens the specification describes for an uncompressed request: the
canonical labels of the consecutive units from the unit containing `s`
through the unit containing `e`, each prefixed. -/
def uncompressedTokens (pre : String) (s e : Nat) (g : PeriodType) : List String :=
  (List.range' (unitIdx g s) (unitIdx g e + 1 - unitIdx g s)).map (fun i => pre ++ unitLabel g i)

/-- Claim C1: for every valid range and each of the three supported
granularities, `indexesByTimeRange` with `enableGroupSelect = false` returns
exactly the canonical labels of the consecutive units from the unit
containing `startAt` through the unit containing `endAt`, in chronological
order, without duplicates; a range inside one unit yields exactly one
token. -/
theorem indexesByTimeRange_nogroup_exact (pre : String) (s e : Nat) (h : s ≤ e)
    (g : PeriodType) (hg : g ∈ [PeriodType.DAILY, PeriodType.MONTHLY, PeriodType.YEARLY]) :
    indexesByTimeRange pre s e g false = Except.ok (uncompressedTokens pre s e g)
    ∧ (uncompressedTokens pre s e g).Nodup
    ∧ (unitIdx g s = unitIdx g e → (uncompressedTokens pre s e g).length = 1) := by
  have hlen : ∀ g' : PeriodType,
      (uncompressedTokens pre s e g').length = unitIdx g' e + 1 - unitIdx g' s := by
    intro g'
    unfold uncompressedTokens
    rw [List.length_map, List.length_range']
  simp only [List.mem_cons, List.mem_singleton] at hg
  rcases hg with hg | hg | hg | hg
  · subst hg
    refine ⟨indexes_daily_nogroup pre s e h, ?_, ?_⟩
    · unfold uncompressedTokens
      refine List.Nodup.map ?_ (List.nodup_range' _ _)
      intro a b hab
      exact dayLabel_injective (string_append_left_cancel pre _ _ hab)
    · intro he
      rw [hlen]
      omega
  · subst hg
    refine ⟨indexes_monthly_nogroup pre s e h, ?_, ?_⟩
    · unfold uncompressedTokens
      refine List.Nodup.map ?_ (List.nodup_range' _ _)
      intro a b hab
      exact monthLabel_injective (string_append_left_cancel pre _ _ hab)
    · intro he
      rw [hlen]
      omega
  · subst hg
    refine ⟨indexes_yearly pre s e false h, ?_, ?_⟩
    · unfold uncompressedTokens
      refine List.Nodup.map ?_ (List.nodup_range' _ _)
      intro a b hab
      exact yearLabel_injective (string_append_left_cancel pre _ _ hab)
    · intro he
      rw [hlen]
      omega
  · exact absurd hg (by simp)

/-- Witness for C1 at the repository's own two-day test fixture. -/
theorem indexesByTimeRange_nogroup_exact_witness :
    indexesByTimeRange "test_" 1561161600 1561301999 PeriodType.DAILY false =
      Except.ok (uncompressedTokens "test_" 1561161600 1561301999 PeriodType.DAILY)
    ∧ uncompressedTokens "test_" 1561161600 1561301999 PeriodType.DAILY =
      ["test_2019.06.22", "test_2019.06.23"] := by
  refine ⟨(indexesByTimeRange_nogroup_exact "test_" 1561161600 1561301999 (by omega)
    PeriodType.DAILY (by simp)).1, ?_⟩
  rfl

/-- Counterexample to claim C2 as stated: a 150-day range with group
selection disabled enumerates 150 tokens (more than 100), yet the result is
the full token list, not the single wildcard `prefix + "*"`. -/
theorem indexesByTimeRange_over100_cex :
    (∃ l, indexesByTimeRange "test_" 1561161600 1574035200 PeriodType.DAILY false =
      Except.ok l ∧ l.length = 150)
    ∧ indexesByTimeRange "test_" 1561161600 1574035200 PeriodType.DAILY false ≠
        Except.ok ["test_" ++ "*"] := by
  have hd := indexes_daily_nogroup "test_" 1561161600 1574035200 (by omega)
  have hlen : ((List.range' (dayIdx 1561161600)
      (dayIdx 1574035200 + 1 - dayIdx 1561161600)).map
      (fun i => "test_" ++ renderTok (Tok.day (civilFromDay i)))).length = 150 := by
    rw [List.length_map, List.length_range']
    decide
  constructor
  · exact ⟨_, hd, hlen⟩
  · intro hc
    rw [hd] at hc
    simp only [Except.ok.injEq] at hc
    have h1 := congrArg List.length hc
    rw [hlen] at h1
    simp at h1

/-- Claim C2 as amended: the current `indexesByTimeRange` applies no
100-token fallback at all.  With `enableGroupSelect = false` and a valid
range it returns one token per unit in the range — even when that count
exceeds 100 it never discards the tokens for the single wildcard
`prefix + "*"` (the fallback existed only in the legacy
`indexSelectorByTimeRange` kept in `test/esrepo_old.txt`). -/
theorem indexesByTimeRange_no_threshold (pre : String) (s e : Nat) (h : s ≤ e)
    (g : PeriodType) (hg : g ∈ [PeriodType.DAILY, PeriodType.MONTHLY, PeriodType.YEARLY]) :
    ∃ l, indexesByTimeRange pre s e g false = Except.ok l
      ∧ l.length = unitIdx g e + 1 - unitIdx g s
      ∧ (100 < unitIdx g e + 1 - unitIdx g s → l ≠ [pre ++ "*"]) := by
  obtain ⟨h1, _, _⟩ := indexesByTimeRange_nogroup_exact pre s e h g hg
  refine ⟨uncompressedTokens pre s e g, h1, ?_, ?_⟩
  · unfold uncompressedTokens
    rw [List.length_map, List.length_range']
  · intro h100 hc
    have hl := congrArg List.length hc
    unfold uncompressedTokens at hl
    rw [List.length_map, List.length_range'] at hl
    simp at hl
    omega

/-- Witness for the amended C2 at the concrete 150-day range. -/
theorem indexesByTimeRange_no_threshold_witness :
    ∃ l, indexesByTimeRange "test_" 1561161600 1574035200 PeriodType.DAILY false =
      Except.ok l
      ∧ l.length = unitIdx PeriodType.DAILY 1574035200 + 1 -
          unitIdx PeriodType.DAILY 1561161600
      ∧ (100 < unitIdx PeriodType.DAILY 1574035200 + 1 -
          unitIdx PeriodType.DAILY 1561161600 → l ≠ ["test_" ++ "*"]) :=
  indexesByTimeRange_no_threshold "test_" 1561161600 1574035200 (by omega)
    PeriodType.DAILY (by simp)

/-- Concrete day tokens of month `m` of year `y`, in order. -/
def monthDays (y m : Nat) : List Tok :=
  (List.range' 1 (daysInMonth y m)).map (fun d => Tok.day ⟨y, m, d⟩)

/-- Concrete day tokens of months `m ..12` of year `y`, in order. -/
def monthsDaysFrom (y m : Nat) : List Tok :=
  (List.range' m (13 - m)).flatMap (fun mm => monthDays y mm)

/-- Concrete day tokens of the whole year `y`, in order. -/
def yearDays (y : Nat) : List Tok := monthsDaysFrom y 1

/-- Concrete month tokens of the whole year `y`, in order. -/
def yearMonths (y : Nat) : List Tok := (List.range' 1 12).map (fun m => Tok.month y m)

theorem range'_split (s a b : Nat) :
    List.range' s (a + b) = List.range' s a ++ List.range' (s + a) b := by
  have h := List.range'_append s a b 1
  simp only [one_mul] at h
  rw [Nat.add_comm a b]
  exact h.symm

theorem civil_add_within_month : ∀ k i y m d, civilFromDay i = ⟨y, m, d⟩ →
    d + k ≤ daysInMonth y m → civilFromDay (i + k) = ⟨y, m, d + k⟩ := by
  intro k
  induction k with
  | zero => intro i y m d h _; simpa using h
  | succ k ih =>
    intro i y m d h hk
    have hprev := ih i y m d h (by omega)
    rw [show i + (k + 1) = (i + k) + 1 from rfl, civilFromDay_succ, hprev, nextDay_mk,
      if_pos (show d + k < daysInMonth y m by omega)]
    rfl

theorem civil_add_dim (i y m : Nat) (h : civilFromDay i = ⟨y, m, 1⟩) :
    civilFromDay (i + daysInMonth y m) = nextMonthStart y m := by
  have hdim := daysInMonth_pos y m
  have hlast := civil_add_within_month (daysInMonth y m - 1) i y m 1 h (by omega)
  rw [show i + daysInMonth y m = (i + (daysInMonth y m - 1)) + 1 from by omega,
    civilFromDay_succ, hlast, nextDay_mk, if_neg (by omega)]
  rfl

theorem chain_within_month : ∀ cnt d i y m, civilFromDay i = ⟨y, m, d⟩ → 1 ≤ d →
    d + cnt ≤ daysInMonth y m + 1 →
    (List.range' i cnt).map (fun k => Tok.day (civilFromDay k)) =
      (List.range' d cnt).map (fun dd => Tok.day ⟨y, m, dd⟩) := by
  intro cnt
  induction cnt with
  | zero => intro d i y m _ _ _; rfl
  | succ cnt ih =>
    intro d i y m h hd hcnt
    rw [List.range'_succ, List.range'_succ]
    simp only [List.map_cons]
    congr 1
    · rw [h]
    · cases cnt with
      | zero => rfl
      | succ cnt2 =>
        have hstep : civilFromDay (i + 1) = ⟨y, m, d + 1⟩ := by
          rw [civilFromDay_succ, h, nextDay_mk, if_pos (by omega)]
        exact ih (d + 1) (i + 1) y m hstep (by omega) (by omega)

theorem chain_months_from : ∀ mm i y m, m + mm = 13 → 1 ≤ m →
    civilFromDay i = ⟨y, m, 1⟩ →
    ((List.range' i (monthsTailSum y m)).map (fun k => Tok.day (civilFromDay k)) =
        monthsDaysFrom y m
      ∧ civilFromDay (i + monthsTailSum y m) = ⟨y + 1, 1, 1⟩) := by
  intro mm
  induction mm with
  | zero =>
    intro i y m hm _ h
    exfalso
    have hv := civilFromDay_valid i
    rw [h, validDate_mk] at hv
    omega
  | succ mm ih =>
    intro i y m hm h1 h
    have hm12 : m ≤ 12 := by omega
    have hts : monthsTailSum y m = daysInMonth y m + monthsTailSum y (m + 1) := by
      rw [monthsTailSum_unfold, if_neg (by omega)]
    have hchain1 := chain_within_month (daysInMonth y m) 1 i y m h (by omega) (by omega)
    have hnext := civil_add_dim i y m h
    have hsplit := range'_split i (daysInMonth y m) (monthsTailSum y (m + 1))
    have hfrom : monthsDaysFrom y m = monthDays y m ++ monthsDaysFrom y (m + 1) := by
      unfold monthsDaysFrom
      rw [show 13 - m = (13 - (m + 1)) + 1 from by omega, List.range'_succ]
      rfl
    by_cases hlt : m < 12
    · have hnext2 : civilFromDay (i + daysInMonth y m) = ⟨y, m + 1, 1⟩ := by
        rw [hnext]
        unfold nextMonthStart
        rw [if_pos hlt]
      obtain ⟨ihc, ihe⟩ := ih (i + daysInMonth y m) y (m + 1) (by omega) (by omega) hnext2
      constructor
      · rw [hts, hsplit, List.map_append, hchain1, ihc, hfrom]
        rfl
      · rw [hts, ← Nat.add_assoc]
        exact ihe
    · have hm12e : m = 12 := by omega
      subst hm12e
      have h13 : monthsTailSum y 13 = 0 := monthsTailSum_thirteen y
      constructor
      · rw [hts, h13, Nat.add_zero, hfrom]
        have hfrom13 : monthsDaysFrom y 13 = [] := by
          unfold monthsDaysFrom
          rw [show 13 - 13 = 0 from rfl]
          rfl
        rw [hfrom13, List.append_nil, hchain1]
        rfl
      · rw [hts, h13, Nat.add_zero, hnext]
        unfold nextMonthStart
        rw [if_neg (by omega)]

/-- Expansion of a daily-partitioning token into the concrete day tokens it
stands for (a group token covers its whole period, a concrete token stands
for itself). -/
def expandTokDaily : Tok → List Tok
  | .yearGroup y => yearDays y
  | .monthGroup y m => monthDays y m
  | t => [t]

/-- Expansion of a monthly-partitioning token into concrete month tokens. -/
def expandTokMonthly : Tok → List Tok
  | .yearGroup y => yearMonths y
  | t => [t]

theorem daysInMonth_twelve (y : Nat) : daysInMonth y 12 = 31 := rfl

theorem dLe_trans (a b c : Date) (h1 : dLe a b) (h2 : dLe b c) : dLe a c := by
  unfold dLe at *
  omega

theorem pred_yearStart (c : Date) (Y : Nat) (hv : ValidDate c)
    (h : nextDay c = ⟨Y + 1, 1, 1⟩) : c = ⟨Y, 12, 31⟩ := by
  obtain ⟨hv1, hv2, hv3, hv4⟩ := hv
  rw [nextDay] at h
  split at h
  · simp only [Date.mk.injEq] at h
    omega
  · next hn1 =>
    split at h
    · simp only [Date.mk.injEq] at h
      omega
    · next hn2 =>
      simp only [Date.mk.injEq] at h
      have hm : c.month = 12 := by omega
      have hd : c.day = 31 := by
        rw [hm, daysInMonth_twelve] at hv4 hn1
        omega
      have hy : c.year = Y := by omega
      calc c = ⟨c.year, c.month, c.day⟩ := rfl
        _ = ⟨Y, 12, 31⟩ := by rw [hy, hm, hd]

theorem dailyLoop_group_expand : ∀ fuel i j, j + 1 - i ≤ fuel →
    (dailyLoop fuel true (civilFromDay i) (civilFromDay j)).flatMap expandTokDaily =
      (List.range' i (j + 1 - i)).map (fun k => Tok.day (civilFromDay k)) := by
  intro fuel
  induction fuel with
  | zero =>
    intro i j h
    rw [show j + 1 - i = 0 from by omega]
    rfl
  | succ fuel ih =>
    intro i j h
    by_cases hij : i ≤ j
    · have hcond := (dLe_civil_iff i j).mpr hij
      rcases hcc : civilFromDay i with ⟨Y, M, D⟩
      have hv := civilFromDay_valid i
      rw [hcc] at hv
      rw [validDate_mk] at hv
      rw [hcc] at hcond
      simp only [dailyLoop]
      rw [if_pos hcond]
      by_cases hy : M = 1 ∧ D = 1 ∧ dLe ⟨Y, 12, 31⟩ (civilFromDay j)
      · -- year-group branch
        obtain ⟨hM1, hD1, hYend⟩ := hy
        subst hM1
        subst hD1
        rw [if_pos (⟨trivial, rfl, rfl, hYend⟩ :
          True ∧ 1 = 1 ∧ 1 = 1 ∧ dLe ⟨Y, 12, 31⟩ (civilFromDay j))]
        obtain ⟨hchain, hend⟩ := chain_months_from 12 i Y 1 (by omega) (by omega) hcc
        have hts_pos := monthsTailSum_pos Y 1 (by omega)
        have hpred : civilFromDay (i + monthsTailSum Y 1 - 1) = ⟨Y, 12, 31⟩ := by
          apply pred_yearStart _ _ (civilFromDay_valid _)
          rw [← civilFromDay_succ]
          rw [show i + monthsTailSum Y 1 - 1 + 1 = i + monthsTailSum Y 1 from by omega]
          exact hend
        have hbound : i + monthsTailSum Y 1 - 1 ≤ j := by
          apply (dLe_civil_iff _ _).mp
          rw [hpred]
          exact hYend
        have hnext : (⟨Y + 1, 1, 1⟩ : Date) = civilFromDay (i + monthsTailSum Y 1) :=
          hend.symm
        rw [hnext]
        rw [List.flatMap_cons]
        rw [ih (i + monthsTailSum Y 1) j (by omega)]
        rw [show expandTokDaily (Tok.yearGroup Y) = yearDays Y from rfl]
        rw [show j + 1 - i = monthsTailSum Y 1 + (j + 1 - (i + monthsTailSum Y 1))
          from by omega]
        rw [range'_split, List.map_append, hchain]
        rfl
      · rw [if_neg (fun hc => hy ⟨hc.2.1, hc.2.2.1, hc.2.2.2⟩)]
        by_cases hm : D = 1 ∧ dLe ⟨Y, M, daysInMonth Y M⟩ (civilFromDay j)
        · -- month-group branch
          obtain ⟨hD1, hMend⟩ := hm
          subst hD1
          rw [if_pos (⟨trivial, rfl, hMend⟩ :
            True ∧ 1 = 1 ∧ dLe ⟨Y, M, daysInMonth Y M⟩ (civilFromDay j))]
          have hdim := daysInMonth_pos Y M
          have hchain := chain_within_month (daysInMonth Y M) 1 i Y M hcc (by omega)
            (by omega)
          have hnext := civil_add_dim i Y M hcc
          have hpred : civilFromDay (i + daysInMonth Y M - 1) = ⟨Y, M, daysInMonth Y M⟩ := by
            have := civil_add_within_month (daysInMonth Y M - 1) i Y M 1 hcc (by omega)
            rw [show 1 + (daysInMonth Y M - 1) = daysInMonth Y M from by omega] at this
            rw [show i + daysInMonth Y M - 1 = i + (daysInMonth Y M - 1) from by omega]
            exact this
          have hbound : i + daysInMonth Y M - 1 ≤ j := by
            apply (dLe_civil_iff _ _).mp
            rw [hpred]
            exact hMend
          rw [List.flatMap_cons]
          rw [show nextMonthStart Y M =
            civilFromDay (i + daysInMonth Y M) from hnext.symm]
          rw [ih (i + daysInMonth Y M) j (by omega)]
          rw [show expandTokDaily (Tok.monthGroup Y M) = monthDays Y M from rfl]
          rw [show j + 1 - i = daysInMonth Y M + (j + 1 - (i + daysInMonth Y M))
            from by omega]
          rw [range'_split, List.map_append, hchain]
          rfl
        · rw [if_neg (fun hc => hm ⟨hc.2.1, hc.2.2⟩)]
          rw [List.flatMap_cons]
          rw [show nextDay (⟨Y, M, D⟩ : Date) = civilFromDay (i + 1) from by
            rw [← hcc, ← civilFromDay_succ]]
          rw [ih (i + 1) j (by omega)]
          rw [show j + 1 - i = 1 + (j + 1 - (i + 1)) from by omega]
          rw [range'_split, List.map_append]
          rw [show List.range' i 1 = [i] from rfl]
          simp only [List.map_cons, List.map_nil, expandTokDaily]
          rw [hcc]
    · have hcond : ¬ dLe (civilFromDay i) (civilFromDay j) :=
        fun hc => hij ((dLe_civil_iff i j).mp hc)
      simp only [dailyLoop]
      rw [if_neg hcond, show j + 1 - i = 0 from by omega]
      rfl

theorem pLe_yearEnd_iff (i j : Nat) :
    pLe (i / 12, 12) (j / 12, j % 12 + 1) ↔ i / 12 * 12 + 11 ≤ j := by
  show i / 12 < j / 12 ∨ (i / 12 = j / 12 ∧ 12 ≤ j % 12 + 1) ↔ _
  omega

theorem monthChain_fixed_year : ∀ cnt d0 i, i % 12 = d0 → d0 + cnt ≤ 12 →
    (List.range' i cnt).map (fun k => Tok.month (k / 12) (k % 12 + 1)) =
      (List.range' (d0 + 1) cnt).map (fun m => Tok.month (i / 12) m) := by
  intro cnt
  induction cnt with
  | zero => intro d0 i _ _; rfl
  | succ cnt ih =>
    intro d0 i h0 hle
    rw [List.range'_succ, List.range'_succ]
    simp only [List.map_cons]
    congr 1
    · rw [h0]
    · cases cnt with
      | zero => rfl
      | succ cnt2 =>
        have hd0 : d0 + 1 < 12 := by omega
        have hstep : (i + 1) % 12 = d0 + 1 := by omega
        have hdiv : (i + 1) / 12 = i / 12 := by omega
        rw [ih (d0 + 1) (i + 1) hstep (by omega), hdiv]

theorem monthlyLoop_group_expand : ∀ fuel i j, j + 1 - i ≤ fuel →
    (monthlyLoop fuel true (i / 12, i % 12 + 1) (j / 12, j % 12 + 1)).flatMap
        expandTokMonthly =
      (List.range' i (j + 1 - i)).map (fun k => Tok.month (k / 12) (k % 12 + 1)) := by
  intro fuel
  induction fuel with
  | zero =>
    intro i j h
    rw [show j + 1 - i = 0 from by omega]
    rfl
  | succ fuel ih =>
    intro i j h
    by_cases hij : i ≤ j
    · have hcond := (pLe_pairIdx_iff i j).mpr hij
      simp only [monthlyLoop]
      rw [if_pos hcond]
      by_cases hy : i % 12 = 0 ∧ pLe (i / 12, 12) (j / 12, j % 12 + 1)
      · obtain ⟨h0, hYend⟩ := hy
        rw [if_pos (⟨trivial, by omega, hYend⟩ :
          True ∧ i % 12 + 1 = 1 ∧ pLe (i / 12, 12) (j / 12, j % 12 + 1))]
        have hbound : i + 11 ≤ j := by
          have := (pLe_yearEnd_iff i j).mp hYend
          omega
        have hnextp : ((i / 12 + 1, 1) : Nat × Nat) = ((i + 12) / 12, (i + 12) % 12 + 1) := by
          have h1 : (i + 12) / 12 = i / 12 + 1 := by omega
          have h2 : (i + 12) % 12 = 0 := by omega
          rw [h1, h2]
        rw [hnextp, List.flatMap_cons]
        rw [ih (i + 12) j (by omega)]
        rw [show expandTokMonthly (Tok.yearGroup (i / 12)) = yearMonths (i / 12) from rfl]
        rw [show j + 1 - i = 12 + (j + 1 - (i + 12)) from by omega]
        rw [range'_split, List.map_append]
        rw [monthChain_fixed_year 12 0 i h0 (by omega)]
        rfl
      · rw [if_neg (fun hc => hy ⟨by omega, hc.2.2⟩)]
        rw [List.flatMap_cons]
        rw [nextMonthPair_pairIdx]
        rw [ih (i + 1) j (by omega)]
        rw [show j + 1 - i = 1 + (j + 1 - (i + 1)) from by omega]
        rw [range'_split, List.map_append]
        rw [show List.range' i 1 = [i] from rfl]
        rfl
    · have hcond : ¬ pLe (i / 12, i % 12 + 1) (j / 12, j % 12 + 1) :=
        fun hc => hij ((pLe_pairIdx_iff i j).mp hc)
      simp only [monthlyLoop]
      rw [if_neg hcond, show j + 1 - i = 0 from by omega]
      rfl

theorem dailyLoop_shape : ∀ fuel gs c e t, t ∈ dailyLoop fuel gs c e →
    (∃ d, t = Tok.day d) ∨ (∃ y m, t = Tok.monthGroup y m) ∨ (∃ y, t = Tok.yearGroup y) := by
  intro fuel
  induction fuel with
  | zero => intro gs c e t ht; exact absurd ht (by simp [dailyLoop])
  | succ fuel ih =>
    intro gs c e t ht
    simp only [dailyLoop] at ht
    split at ht
    · split at ht
      · rcases List.mem_cons.mp ht with he | hm
        · exact Or.inr (Or.inr ⟨_, he⟩)
        · exact ih gs _ e t hm
      · split at ht
        · rcases List.mem_cons.mp ht with he | hm
          · exact Or.inr (Or.inl ⟨_, _, he⟩)
          · exact ih gs _ e t hm
        · rcases List.mem_cons.mp ht with he | hm
          · exact Or.inl ⟨_, he⟩
          · exact ih gs _ e t hm
    · exact absurd ht (by simp)

theorem monthlyLoop_shape : ∀ fuel gs c e t, t ∈ monthlyLoop fuel gs c e →
    (∃ y m, t = Tok.month y m) ∨ (∃ y, t = Tok.yearGroup y) := by
  intro fuel
  induction fuel with
  | zero => intro gs c e t ht; exact absurd ht (by simp [monthlyLoop])
  | succ fuel ih =>
    intro gs c e t ht
    simp only [monthlyLoop] at ht
    split at ht
    · split at ht
      · rcases List.mem_cons.mp ht with he | hm
        · exact Or.inr ⟨_, he⟩
        · exact ih gs _ e t hm
      · rcases List.mem_cons.mp ht with he | hm
        · exact Or.inl ⟨_, _, he⟩
        · exact ih gs _ e t hm
    · exact absurd ht (by simp)

theorem yearlyLoop_shape : ∀ fuel c e t, t ∈ yearlyLoop fuel c e → ∃ y, t = Tok.year y := by
  intro fuel
  induction fuel with
  | zero => intro c e t ht; exact absurd ht (by simp [yearlyLoop])
  | succ fuel ih =>
    intro c e t ht
    simp only [yearlyLoop] at ht
    split at ht
    · rcases List.mem_cons.mp ht with he | hm
      · exact ⟨_, he⟩
      · exact ih _ e t hm
    · exact absurd ht (by simp)

theorem monthDays_ne_nil (y m : Nat) : monthDays y m ≠ [] := by
  apply List.ne_nil_of_length_pos
  unfold monthDays
  rw [List.length_map, List.length_range']
  exact daysInMonth_pos y m

theorem yearDays_ne_nil (y : Nat) : yearDays y ≠ [] := by
  unfold yearDays monthsDaysFrom
  rw [show (13 : Nat) - 1 = 11 + 1 from rfl, List.range'_succ, List.flatMap_cons]
  intro hc
  exact monthDays_ne_nil y 1 (List.append_eq_nil.mp hc).1

theorem yearMonths_ne_nil (y : Nat) : yearMonths y ≠ [] := by
  apply List.ne_nil_of_length_pos
  unfold yearMonths
  rw [List.length_map, List.length_range']
  omega

theorem expandTokDaily_ne_nil (t : Tok) : expandTokDaily t ≠ [] := by
  cases t with
  | day d => simp [expandTokDaily]
  | month y m => simp [expandTokDaily]
  | year y => simp [expandTokDaily]
  | monthGroup y m => exact monthDays_ne_nil y m
  | yearGroup y => exact yearDays_ne_nil y

theorem expandTokMonthly_ne_nil (t : Tok) : expandTokMonthly t ≠ [] := by
  cases t with
  | day d => simp [expandTokMonthly]
  | month y m => simp [expandTokMonthly]
  | year y => simp [expandTokMonthly]
  | monthGroup y m => simp [expandTokMonthly]
  | yearGroup y => exact yearMonths_ne_nil y

theorem nodup_of_flatMap (l : List Tok) (f : Tok → List Tok)
    (hne : ∀ t, f t ≠ []) (h : (l.flatMap f).Nodup) : l.Nodup := by
  induction l with
  | nil => exact List.nodup_nil
  | cons x xs ih =>
    rw [List.flatMap_cons] at h
    rw [List.nodup_append] at h
    obtain ⟨h1, h2, h3⟩ := h
    rw [List.nodup_cons]
    constructor
    · intro hx
      obtain ⟨a, ha⟩ := List.exists_mem_of_ne_nil (f x) (hne x)
      exact h3 ha (List.mem_flatMap.mpr ⟨x, hx, ha⟩)
    · exact ih h2

theorem drop_pre_data (pre s : String) :
    (pre ++ s).data.drop pre.data.length = s.data := by
  rw [data_append]
  exact List.drop_left _ _

theorem valOfDigits_fmtYYYY (y : Nat) : valOfDigits (fmtYYYY y) = y :=
  valOfDigits_digitChars y

/-- Modelled from the spec's words (the expansion side of the refinement
claim): given a selector token, if its suffix after the prefix has the
group shape `YYYY.*` (resp. `YYYY.MM.*`), replace it by the prefixed
concrete unit labels of that year (resp. month) at the partitioning
granularity; any other token stands for itself. -/
def expandSuffix (pre : String) (g : PeriodType) (s : String) :
    List (List Char) → List String
  | [ys, st] =>
    if st = ['*'] then
      match g with
      | PeriodType.DAILY => (yearDays (valOfDigits ys)).map (fun t => pre ++ renderTok t)
      | PeriodType.MONTHLY => (yearMonths (valOfDigits ys)).map (fun t => pre ++ renderTok t)
      | PeriodType.YEARLY => [pre ++ renderTok (Tok.year (valOfDigits ys))]
      | PeriodType.other _ => [s]
    else [s]
  | [ys, ms, st] =>
    if st = ['*'] then
      match g with
      | PeriodType.DAILY =>
        (monthDays (valOfDigits ys) (valOfDigits ms)).map (fun t => pre ++ renderTok t)
      | PeriodType.MONTHLY => [pre ++ renderTok (Tok.month (valOfDigits ys) (valOfDigits ms))]
      | _ => [s]
    else [s]
  | _ => [s]

/-- Modelled from the spec's words: expansion of one selector token into the
concrete unit labels it covers, by splitting its suffix on dots. -/
def expandToken (pre : String) (g : PeriodType) (s : String) : List String :=
  expandSuffix pre g s (splitOnDot (s.data.drop pre.data.length))

theorem expandToken_day (pre : String) (y m d : Nat) :
    expandToken pre PeriodType.DAILY (pre ++ renderTok (Tok.day ⟨y, m, d⟩)) =
      [pre ++ renderTok (Tok.day ⟨y, m, d⟩)] := by
  unfold expandToken
  rw [drop_pre_data, splitRender_day]
  simp only [expandSuffix]
  rw [if_neg (fun hc => star_not_mem_pad2 d (by rw [hc]; exact List.mem_cons_self '*' []))]

theorem expandToken_monthGroup (pre : String) (y m : Nat) :
    expandToken pre PeriodType.DAILY (pre ++ renderTok (Tok.monthGroup y m)) =
      (monthDays y m).map (fun t => pre ++ renderTok t) := by
  unfold expandToken
  rw [drop_pre_data, splitRender_monthGroup]
  simp only [expandSuffix]
  rw [if_pos trivial, valOfDigits_fmtYYYY, valOfDigits_pad2]

theorem expandToken_yearGroup_daily (pre : String) (y : Nat) :
    expandToken pre PeriodType.DAILY (pre ++ renderTok (Tok.yearGroup y)) =
      (yearDays y).map (fun t => pre ++ renderTok t) := by
  unfold expandToken
  rw [drop_pre_data, splitRender_yearGroup]
  simp only [expandSuffix]
  rw [if_pos trivial, valOfDigits_fmtYYYY]

theorem expandToken_month (pre : String) (y m : Nat) :
    expandToken pre PeriodType.MONTHLY (pre ++ renderTok (Tok.month y m)) =
      [pre ++ renderTok (Tok.month y m)] := by
  unfold expandToken
  rw [drop_pre_data, splitRender_month]
  simp only [expandSuffix]
  rw [if_neg (fun hc => star_not_mem_pad2 m (by rw [hc]; exact List.mem_cons_self '*' []))]

theorem expandToken_yearGroup_monthly (pre : String) (y : Nat) :
    expandToken pre PeriodType.MONTHLY (pre ++ renderTok (Tok.yearGroup y)) =
      (yearMonths y).map (fun t => pre ++ renderTok t) := by
  unfold expandToken
  rw [drop_pre_data, splitRender_yearGroup]
  simp only [expandSuffix]
  rw [if_pos trivial, valOfDigits_fmtYYYY]

theorem expandToken_yearly (pre : String) (y : Nat) :
    expandToken pre PeriodType.YEARLY (pre ++ renderTok (Tok.year y)) =
      [pre ++ renderTok (Tok.year y)] := by
  unfold expandToken
  rw [drop_pre_data, splitRender_year]
  rfl

theorem expandToken_daily_tok (pre : String) (t : Tok)
    (h : (∃ d, t = Tok.day d) ∨ (∃ y m, t = Tok.monthGroup y m) ∨ (∃ y, t = Tok.yearGroup y)) :
    expandToken pre PeriodType.DAILY (pre ++ renderTok t) =
      (expandTokDaily t).map (fun u => pre ++ renderTok u) := by
  rcases h with ⟨d, hd⟩ | ⟨y, m, hm⟩ | ⟨y, hy⟩
  · subst hd
    obtain ⟨y, m, dd⟩ := d
    rw [expandToken_day]
    rfl
  · subst hm
    rw [expandToken_monthGroup]
    rfl
  · subst hy
    rw [expandToken_yearGroup_daily]
    rfl

theorem expandToken_monthly_tok (pre : String) (t : Tok)
    (h : (∃ y m, t = Tok.month y m) ∨ (∃ y, t = Tok.yearGroup y)) :
    expandToken pre PeriodType.MONTHLY (pre ++ renderTok t) =
      (expandTokMonthly t).map (fun u => pre ++ renderTok u) := by
  rcases h with ⟨y, m, hm⟩ | ⟨y, hy⟩
  · subst hm
    rw [expandToken_month]
    rfl
  · subst hy
    rw [expandToken_yearGroup_monthly]
    rfl

theorem except_map_ok {α β : Type} (f : α → β) (x : α) :
    ((Except.ok x : Except RepoError α).map f : Except RepoError β) = Except.ok (f x) := rfl

theorem daily_expand_list (pre : String) (i j fuel : Nat) (hf : j + 1 - i ≤ fuel) :
    ((dedupFirst ((dailyLoop fuel true (civilFromDay i) (civilFromDay j)).map
      renderTok)).map (fun v => pre ++ v)).flatMap (expandToken pre PeriodType.DAILY) =
      (List.range' i (j + 1 - i)).map
        (fun k => pre ++ renderTok (Tok.day (civilFromDay k))) := by
  have hexp := dailyLoop_group_expand fuel i j hf
  have hnodupTok : (dailyLoop fuel true (civilFromDay i) (civilFromDay j)).Nodup := by
    apply nodup_of_flatMap _ expandTokDaily expandTokDaily_ne_nil
    rw [hexp]
    refine List.Nodup.map ?_ (List.nodup_range' _ _)
    intro a b hab
    have hcd : civilFromDay a = civilFromDay b := by injection hab
    exact civilFromDay_injective a b hcd
  have hnodupStr : ((dailyLoop fuel true (civilFromDay i) (civilFromDay j)).map
      renderTok).Nodup :=
    List.Nodup.map (fun a b hh => renderTok_inj a b hh) hnodupTok
  rw [dedupFirst_of_nodup _ hnodupStr]
  have h1 : (((dailyLoop fuel true (civilFromDay i) (civilFromDay j)).map renderTok).map
      (fun v => pre ++ v)).flatMap (expandToken pre PeriodType.DAILY) =
      ((dailyLoop fuel true (civilFromDay i) (civilFromDay j)).map renderTok).flatMap
        (fun a => expandToken pre PeriodType.DAILY (pre ++ a)) :=
    List.flatMap_map _ _ _
  have h2 : ((dailyLoop fuel true (civilFromDay i) (civilFromDay j)).map renderTok).flatMap
      (fun a => expandToken pre PeriodType.DAILY (pre ++ a)) =
      (dailyLoop fuel true (civilFromDay i) (civilFromDay j)).flatMap
        (fun t => expandToken pre PeriodType.DAILY (pre ++ renderTok t)) :=
    List.flatMap_map _ _ _
  have h3 : (dailyLoop fuel true (civilFromDay i) (civilFromDay j)).flatMap
      (fun t => expandToken pre PeriodType.DAILY (pre ++ renderTok t)) =
      (dailyLoop fuel true (civilFromDay i) (civilFromDay j)).flatMap
        (fun t => (expandTokDaily t).map (fun u => pre ++ renderTok u)) :=
    List.flatMap_congr (fun t ht => expandToken_daily_tok pre t
      (dailyLoop_shape _ _ _ _ t ht))
  have h4 : (dailyLoop fuel true (civilFromDay i) (civilFromDay j)).flatMap
      (fun t => (expandTokDaily t).map (fun u => pre ++ renderTok u)) =
      ((dailyLoop fuel true (civilFromDay i) (civilFromDay j)).flatMap
        expandTokDaily).map (fun u => pre ++ renderTok u) :=
    (List.map_flatMap _ _ _).symm
  rw [h1, h2, h3, h4, hexp, List.map_map]
  rfl

theorem monthly_expand_list (pre : String) (i j fuel : Nat) (hf : j + 1 - i ≤ fuel) :
    ((dedupFirst ((monthlyLoop fuel true (i / 12, i % 12 + 1) (j / 12, j % 12 + 1)).map
      renderTok)).map (fun v => pre ++ v)).flatMap (expandToken pre PeriodType.MONTHLY) =
      (List.range' i (j + 1 - i)).map
        (fun k => pre ++ renderTok (Tok.month (k / 12) (k % 12 + 1))) := by
  have hexp := monthlyLoop_group_expand fuel i j hf
  have hnodupTok : (monthlyLoop fuel true (i / 12, i % 12 + 1)
      (j / 12, j % 12 + 1)).Nodup := by
    apply nodup_of_flatMap _ expandTokMonthly expandTokMonthly_ne_nil
    rw [hexp]
    refine List.Nodup.map ?_ (List.nodup_range' _ _)
    intro a b hab
    have h1 : a / 12 = b / 12 := by injection hab
    have h2 : a % 12 + 1 = b % 12 + 1 := by injection hab
    omega
  have hnodupStr : ((monthlyLoop fuel true (i / 12, i % 12 + 1)
      (j / 12, j % 12 + 1)).map renderTok).Nodup :=
    List.Nodup.map (fun a b hh => renderTok_inj a b hh) hnodupTok
  rw [dedupFirst_of_nodup _ hnodupStr]
  have h1 : (((monthlyLoop fuel true (i / 12, i % 12 + 1) (j / 12, j % 12 + 1)).map
      renderTok).map (fun v => pre ++ v)).flatMap (expandToken pre PeriodType.MONTHLY) =
      ((monthlyLoop fuel true (i / 12, i % 12 + 1) (j / 12, j % 12 + 1)).map
        renderTok).flatMap (fun a => expandToken pre PeriodType.MONTHLY (pre ++ a)) :=
    List.flatMap_map _ _ _
  have h2 : ((monthlyLoop fuel true (i / 12, i % 12 + 1) (j / 12, j % 12 + 1)).map
      renderTok).flatMap (fun a => expandToken pre PeriodType.MONTHLY (pre ++ a)) =
      (monthlyLoop fuel true (i / 12, i % 12 + 1) (j / 12, j % 12 + 1)).flatMap
        (fun t => expandToken pre PeriodType.MONTHLY (pre ++ renderTok t)) :=
    List.flatMap_map _ _ _
  have h3 : (monthlyLoop fuel true (i / 12, i % 12 + 1) (j / 12, j % 12 + 1)).flatMap
      (fun t => expandToken pre PeriodType.MONTHLY (pre ++ renderTok t)) =
      (monthlyLoop fuel true (i / 12, i % 12 + 1) (j / 12, j % 12 + 1)).flatMap
        (fun t => (expandTokMonthly t).map (fun u => pre ++ renderTok u)) :=
    List.flatMap_congr (fun t ht => expandToken_monthly_tok pre t
      (monthlyLoop_shape _ _ _ _ t ht))
  have h4 : (monthlyLoop fuel true (i / 12, i % 12 + 1) (j / 12, j % 12 + 1)).flatMap
      (fun t => (expandTokMonthly t).map (fun u => pre ++ renderTok u)) =
      ((monthlyLoop fuel true (i / 12, i % 12 + 1) (j / 12, j % 12 + 1)).flatMap
        expandTokMonthly).map (fun u => pre ++ renderTok u) :=
    (List.map_flatMap _ _ _).symm
  rw [h1, h2, h3, h4, hexp, List.map_map]
  rfl

/-- Claim C3: for every valid range and each of the three supported
granularities, the output of `indexesByTimeRange` with
`enableGroupSelect = true` covers exactly the same concrete period units as
the output with `enableGroupSelect = false`: expanding every group token
`prefix ++ YYYY ++ ".*"` (resp. `prefix ++ YYYY.MM ++ ".*"`) into the
prefixed concrete unit labels of that year (resp. month) at the
partitioning granularity yields exactly the uncompressed token list. -/
theorem indexesByTimeRange_group_expansion (pre : String) (s e : Nat) (h : s ≤ e)
    (g : PeriodType) (hg : g ∈ [PeriodType.DAILY, PeriodType.MONTHLY, PeriodType.YEARLY]) :
    (indexesByTimeRange pre s e g true).map (fun l => l.flatMap (expandToken pre g)) =
      indexesByTimeRange pre s e g false := by
  simp only [List.mem_cons, List.mem_singleton] at hg
  rcases hg with hg | hg | hg | hg
  · subst hg
    have harm : indexesByTimeRange pre s e PeriodType.DAILY true =
        Except.ok ((dedupFirst ((dailyLoop (dayIdx e + 2) true (civilFromDay (dayIdx s))
          (civilFromDay (dayIdx e))).map renderTok)).map (fun v => pre ++ v)) := by
      unfold indexesByTimeRange
      rw [if_neg (by omega)]
      rfl
    rw [harm, indexes_daily_nogroup pre s e h, except_map_ok]
    congr 1
    exact daily_expand_list pre (dayIdx s) (dayIdx e) (dayIdx e + 2) (by omega)
  · subst hg
    have harm : indexesByTimeRange pre s e PeriodType.MONTHLY true =
        Except.ok ((dedupFirst ((monthlyLoop (dayIdx e + 2) true
          ((dateOf s).year, (dateOf s).month)
          ((dateOf e).year, (dateOf e).month)).map renderTok)).map
            (fun v => pre ++ v)) := by
      unfold indexesByTimeRange
      rw [if_neg (by omega)]
    have hfuel : monthIdxOf e + 1 - monthIdxOf s ≤ dayIdx e + 2 := by
      have hds := dayIdx_mono s e h
      have hadd := civil_monthIdx_add (dayIdx s) (dayIdx e - dayIdx s)
      rw [show dayIdx s + (dayIdx e - dayIdx s) = dayIdx e from by omega] at hadd
      unfold monthIdxOf dateOf
      omega
    rw [harm, pair_monthIdxOf s, pair_monthIdxOf e, indexes_monthly_nogroup pre s e h,
      except_map_ok]
    congr 1
    exact monthly_expand_list pre (monthIdxOf s) (monthIdxOf e) (dayIdx e + 2) hfuel
  · subst hg
    rw [indexes_yearly pre s e true h, indexes_yearly pre s e false h, except_map_ok]
    congr 1
    have hcong : ∀ x ∈ (List.range' (dateOf s).year
        ((dateOf e).year + 1 - (dateOf s).year)).map
          (fun y => pre ++ renderTok (Tok.year y)),
        expandToken pre PeriodType.YEARLY x = [x] := by
      intro x hx
      obtain ⟨y, _, hyeq⟩ := List.mem_map.mp hx
      rw [← hyeq]
      exact expandToken_yearly pre y
    exact (List.flatMap_congr hcong).trans (List.flatMap_singleton' _)
  · exact absurd hg (by simp)

/-- Witness for C3 at the repository's full-year daily fixture (the grouped
selector collapses 2019 into `2019.*` and the expansion recovers the 368
concrete day tokens of the uncompressed selector). -/
theorem indexesByTimeRange_group_expansion_witness :
    (1546268400 ≤ 1577890799 ∧
        PeriodType.DAILY ∈ [PeriodType.DAILY, PeriodType.MONTHLY, PeriodType.YEARLY]) ∧
      (indexesByTimeRange "test_" 1546268400 1577890799 PeriodType.DAILY true).map
          (fun l => l.flatMap (expandToken "test_" PeriodType.DAILY)) =
        indexesByTimeRange "test_" 1546268400 1577890799 PeriodType.DAILY false :=
  ⟨⟨by omega, by decide⟩, indexesByTimeRange_group_expansion "test_" 1546268400 1577890799
    (by omega) PeriodType.DAILY (by decide)⟩

theorem dLe_mk_iff (a b c d e f : Nat) :
    dLe ⟨a, b, c⟩ ⟨d, e, f⟩ ↔
      (a < d ∨ (a = d ∧ (b < e ∨ (b = e ∧ c ≤ f)))) := Iff.rfl

theorem nextMonthStart_valid (y m : Nat) : ValidDate (nextMonthStart y m) := by
  unfold nextMonthStart
  split
  · exact (validDate_mk _ _ _).mpr ⟨by omega, by omega, by omega, daysInMonth_pos _ _⟩
  · exact (validDate_mk _ _ _).mpr ⟨by omega, by omega, by omega, daysInMonth_pos _ _⟩

theorem dailyLoop_monthGroup_bounds : ∀ fuel gs c e Y M, ValidDate c →
    Tok.monthGroup Y M ∈ dailyLoop fuel gs c e → 1 ≤ M ∧ M ≤ 12 := by
  intro fuel
  induction fuel with
  | zero =>
    intro gs c e Y M _ hmem
    exact absurd hmem (by simp [dailyLoop])
  | succ fuel ih =>
    intro gs c e Y M hv hmem
    simp only [dailyLoop] at hmem
    split at hmem
    · split at hmem
      · rcases List.mem_cons.mp hmem with he | hm
        · exact absurd he (by simp)
        · exact ih gs _ e Y M
            ((validDate_mk _ _ _).mpr
              ⟨by omega, by omega, by omega, daysInMonth_pos _ _⟩) hm
      · split at hmem
        · rcases List.mem_cons.mp hmem with he | hm
          · have h1 := hv.1
            have h2 := hv.2.1
            have hYM : Y = c.year ∧ M = c.month := by
              constructor <;> injection he
            exact ⟨by omega, by omega⟩
          · exact ih gs _ e Y M (nextMonthStart_valid _ _) hm
        · rcases List.mem_cons.mp hmem with he | hm
          · exact absurd he (by simp)
          · exact ih gs _ e Y M (nextDay_valid _ hv) hm
    · exact absurd hmem (by simp)

theorem dailyLoop_group_mem : ∀ fuel i j Y M, j + 1 - i ≤ fuel → 1 ≤ M → M ≤ 12 →
    ((Tok.yearGroup Y ∈ dailyLoop fuel true (civilFromDay i) (civilFromDay j) ↔
        dLe (civilFromDay i) ⟨Y, 1, 1⟩ ∧ dLe ⟨Y, 12, 31⟩ (civilFromDay j))
      ∧ (Tok.monthGroup Y M ∈ dailyLoop fuel true (civilFromDay i) (civilFromDay j) ↔
        dLe (civilFromDay i) ⟨Y, M, 1⟩
          ∧ dLe ⟨Y, M, daysInMonth Y M⟩ (civilFromDay j)
          ∧ ¬(dLe (civilFromDay i) ⟨Y, 1, 1⟩ ∧ dLe ⟨Y, 12, 31⟩ (civilFromDay j)))) := by
  intro fuel
  induction fuel with
  | zero =>
    intro i j Y M h hM1 hM2
    constructor
    · constructor
      · intro hmem; exact absurd hmem (by simp [dailyLoop])
      · rintro ⟨h1, h2⟩
        have hle := (dLe_civil_iff i j).mp
          (dLe_trans _ _ _ h1 (dLe_trans _ _ _ (by rw [dLe_mk_iff]; omega) h2))
        omega
    · constructor
      · intro hmem; exact absurd hmem (by simp [dailyLoop])
      · rintro ⟨h1, h2, _⟩
        have hd := daysInMonth_pos Y M
        have hle := (dLe_civil_iff i j).mp
          (dLe_trans _ _ _ h1 (dLe_trans _ _ _ (by rw [dLe_mk_iff]; omega) h2))
        omega
  | succ fuel ih =>
    intro i j Y M h hM1 hM2
    by_cases hij : i ≤ j
    · have hcond0 := (dLe_civil_iff i j).mpr hij
      rcases hcc : civilFromDay i with ⟨Yc, Mc, Dc⟩
      rcases hjj : civilFromDay j with ⟨Yj, Mj, Dj⟩
      have hv := civilFromDay_valid i
      rw [hcc, validDate_mk] at hv
      have hvj := civilFromDay_valid j
      rw [hjj, validDate_mk] at hvj
      rw [hcc, hjj] at hcond0
      simp only [dailyLoop]
      rw [if_pos hcond0]
      by_cases hy : Mc = 1 ∧ Dc = 1 ∧ dLe ⟨Yc, 12, 31⟩ ⟨Yj, Mj, Dj⟩
      · -- year-group branch
        obtain ⟨hMc1, hDc1, hYend⟩ := hy
        subst hMc1
        subst hDc1
        rw [if_pos (⟨trivial, rfl, rfl, hYend⟩ :
          True ∧ 1 = 1 ∧ 1 = 1 ∧ dLe ⟨Yc, 12, 31⟩ ⟨Yj, Mj, Dj⟩)]
        obtain ⟨_, hend⟩ := chain_months_from 12 i Yc 1 (by omega) (by omega) hcc
        have htsp := monthsTailSum_pos Yc 1 (by omega)
        have ihh := ih (i + monthsTailSum Yc 1) j Y M (by omega) hM1 hM2
        rw [hjj, hend] at ihh
        constructor
        · rw [List.mem_cons, Tok.yearGroup.injEq, ihh.1]
          simp only [dLe_mk_iff, true_and, and_true, true_or, or_true, false_or, or_false,
                  not_true, not_false_iff, lt_self_iff_false, le_refl, true_iff, iff_true] at hYend ⊢
          omega
        · have hho : (Tok.monthGroup Y M = Tok.yearGroup Yc) = False := by simp
          rw [List.mem_cons, hho, false_or, ihh.2]
          simp only [dLe_mk_iff, true_and, and_true, true_or, or_true, false_or, or_false,
                  not_true, not_false_iff, lt_self_iff_false, le_refl, true_iff, iff_true] at hYend ⊢
          omega
      · rw [if_neg (fun hc => hy ⟨hc.2.1, hc.2.2.1, hc.2.2.2⟩)]
        by_cases hm : Dc = 1 ∧ dLe ⟨Yc, Mc, daysInMonth Yc Mc⟩ ⟨Yj, Mj, Dj⟩
        · -- month-group branch
          obtain ⟨hDc1, hMend⟩ := hm
          subst hDc1
          rw [if_pos (⟨trivial, rfl, hMend⟩ :
            True ∧ 1 = 1 ∧ dLe ⟨Yc, Mc, daysInMonth Yc Mc⟩ ⟨Yj, Mj, Dj⟩)]
          have hdimc := daysInMonth_pos Yc Mc
          have hnext := civil_add_dim i Yc Mc hcc
          have ihh := ih (i + daysInMonth Yc Mc) j Y M (by omega) hM1 hM2
          rw [hjj, hnext] at ihh
          by_cases hMc12 : Mc < 12
          · have hnms : nextMonthStart Yc Mc = ⟨Yc, Mc + 1, 1⟩ := by
              unfold nextMonthStart
              rw [if_pos hMc12]
            rw [hnms] at ihh ⊢
            constructor
            · have hho : (Tok.yearGroup Y = Tok.monthGroup Yc Mc) = False := by simp
              rw [List.mem_cons, hho, false_or, ihh.1]
              simp only [dLe_mk_iff, true_and, and_true, true_or, or_true, false_or, or_false,
                  not_true, not_false_iff, lt_self_iff_false, le_refl, true_iff, iff_true] at hy hMend ⊢
              omega
            · rw [List.mem_cons, Tok.monthGroup.injEq, ihh.2]
              by_cases hYM : Y = Yc ∧ M = Mc
              · obtain ⟨hY1, hM1e⟩ := hYM
                subst hY1
                subst hM1e
                simp only [dLe_mk_iff, true_and, and_true, true_or, or_true, false_or, or_false,
                  not_true, not_false_iff, lt_self_iff_false, le_refl, true_iff, iff_true] at hy hMend ⊢
                omega
              · simp only [dLe_mk_iff, true_and, and_true, true_or, or_true, false_or, or_false,
                  not_true, not_false_iff, lt_self_iff_false, le_refl, true_iff, iff_true] at hy hMend ⊢
                omega
          · have hnms : nextMonthStart Yc Mc = ⟨Yc + 1, 1, 1⟩ := by
              unfold nextMonthStart
              rw [if_neg hMc12]
            rw [hnms] at ihh ⊢
            constructor
            · have hho : (Tok.yearGroup Y = Tok.monthGroup Yc Mc) = False := by simp
              rw [List.mem_cons, hho, false_or, ihh.1]
              simp only [dLe_mk_iff, true_and, and_true, true_or, or_true, false_or, or_false,
                  not_true, not_false_iff, lt_self_iff_false, le_refl, true_iff, iff_true] at hy hMend ⊢
              omega
            · rw [List.mem_cons, Tok.monthGroup.injEq, ihh.2]
              by_cases hYM : Y = Yc ∧ M = Mc
              · obtain ⟨hY1, hM1e⟩ := hYM
                subst hY1
                subst hM1e
                simp only [dLe_mk_iff, true_and, and_true, true_or, or_true, false_or, or_false,
                  not_true, not_false_iff, lt_self_iff_false, le_refl, true_iff, iff_true] at hy hMend ⊢
                omega
              · simp only [dLe_mk_iff, true_and, and_true, true_or, or_true, false_or, or_false,
                  not_true, not_false_iff, lt_self_iff_false, le_refl, true_iff, iff_true] at hy hMend ⊢
                omega
        · -- concrete-day branch
          rw [if_neg (fun hc => hm ⟨hc.2.1, hc.2.2⟩)]
          have hnd : civilFromDay (i + 1) = nextDay ⟨Yc, Mc, Dc⟩ := by
            rw [civilFromDay_succ, hcc]
          have ihh := ih (i + 1) j Y M (by omega) hM1 hM2
          rw [hjj, hnd] at ihh
          have hdimc := daysInMonth_pos Yc Mc
          by_cases hd1 : Dc < daysInMonth Yc Mc
          · have hndl : nextDay (⟨Yc, Mc, Dc⟩ : Date) = ⟨Yc, Mc, Dc + 1⟩ := by
              rw [nextDay_mk, if_pos hd1]
            rw [hndl] at ihh ⊢
            constructor
            · have hho : (Tok.yearGroup Y = Tok.day ⟨Yc, Mc, Dc⟩) = False := by simp
              rw [List.mem_cons, hho, false_or, ihh.1]
              simp only [dLe_mk_iff, true_and, and_true, true_or, or_true, false_or, or_false,
                  not_true, not_false_iff, lt_self_iff_false, le_refl, true_iff, iff_true] at hy hm ⊢
              omega
            · have hho : (Tok.monthGroup Y M = Tok.day ⟨Yc, Mc, Dc⟩) = False := by simp
              rw [List.mem_cons, hho, false_or, ihh.2]
              by_cases hYM : Y = Yc ∧ M = Mc
              · obtain ⟨hY1, hM1e⟩ := hYM
                subst hY1
                subst hM1e
                simp only [dLe_mk_iff, true_and, and_true, true_or, or_true, false_or, or_false,
                  not_true, not_false_iff, lt_self_iff_false, le_refl, true_iff, iff_true] at hy hm ⊢
                omega
              · simp only [dLe_mk_iff, true_and, and_true, true_or, or_true, false_or, or_false,
                  not_true, not_false_iff, lt_self_iff_false, le_refl, true_iff, iff_true] at hy hm ⊢
                omega
          · by_cases hd2 : Mc < 12
            · have hndl : nextDay (⟨Yc, Mc, Dc⟩ : Date) = ⟨Yc, Mc + 1, 1⟩ := by
                rw [nextDay_mk, if_neg hd1, if_pos hd2]
              rw [hndl] at ihh ⊢
              constructor
              · have hho : (Tok.yearGroup Y = Tok.day ⟨Yc, Mc, Dc⟩) = False := by simp
                rw [List.mem_cons, hho, false_or, ihh.1]
                simp only [dLe_mk_iff, true_and, and_true, true_or, or_true, false_or, or_false,
                  not_true, not_false_iff, lt_self_iff_false, le_refl, true_iff, iff_true] at hy hm ⊢
                omega
              · have hho : (Tok.monthGroup Y M = Tok.day ⟨Yc, Mc, Dc⟩) = False := by simp
                rw [List.mem_cons, hho, false_or, ihh.2]
                by_cases hYM : Y = Yc ∧ M = Mc
                · obtain ⟨hY1, hM1e⟩ := hYM
                  subst hY1
                  subst hM1e
                  simp only [dLe_mk_iff, true_and, and_true, true_or, or_true, false_or, or_false,
                  not_true, not_false_iff, lt_self_iff_false, le_refl, true_iff, iff_true] at hy hm ⊢
                  omega
                · simp only [dLe_mk_iff, true_and, and_true, true_or, or_true, false_or, or_false,
                  not_true, not_false_iff, lt_self_iff_false, le_refl, true_iff, iff_true] at hy hm ⊢
                  omega
            · have hndl : nextDay (⟨Yc, Mc, Dc⟩ : Date) = ⟨Yc + 1, 1, 1⟩ := by
                rw [nextDay_mk, if_neg hd1, if_neg hd2]
              rw [hndl] at ihh ⊢
              constructor
              · have hho : (Tok.yearGroup Y = Tok.day ⟨Yc, Mc, Dc⟩) = False := by simp
                rw [List.mem_cons, hho, false_or, ihh.1]
                simp only [dLe_mk_iff, true_and, and_true, true_or, or_true, false_or, or_false,
                  not_true, not_false_iff, lt_self_iff_false, le_refl, true_iff, iff_true] at hy hm ⊢
                omega
              · have hho : (Tok.monthGroup Y M = Tok.day ⟨Yc, Mc, Dc⟩) = False := by simp
                rw [List.mem_cons, hho, false_or, ihh.2]
                by_cases hYM : Y = Yc ∧ M = Mc
                · obtain ⟨hY1, hM1e⟩ := hYM
                  subst hY1
                  subst hM1e
                  simp only [dLe_mk_iff, true_and, and_true, true_or, or_true, false_or, or_false,
                  not_true, not_false_iff, lt_self_iff_false, le_refl, true_iff, iff_true] at hy hm ⊢
                  omega
                · simp only [dLe_mk_iff, true_and, and_true, true_or, or_true, false_or, or_false,
                  not_true, not_false_iff, lt_self_iff_false, le_refl, true_iff, iff_true] at hy hm ⊢
                  omega
    · have hcond : ¬ dLe (civilFromDay i) (civilFromDay j) :=
        fun hc => hij ((dLe_civil_iff i j).mp hc)
      have hloop : dailyLoop (fuel + 1) true (civilFromDay i) (civilFromDay j) = [] := by
        simp only [dailyLoop]
        rw [if_neg hcond]
      rw [hloop]
      constructor
      · constructor
        · intro hmem; exact absurd hmem (by simp)
        · rintro ⟨h1, h2⟩
          have hle := (dLe_civil_iff i j).mp
            (dLe_trans _ _ _ h1 (dLe_trans _ _ _ (by rw [dLe_mk_iff]; omega) h2))
          omega
      · constructor
        · intro hmem; exact absurd hmem (by simp)
        · rintro ⟨h1, h2, _⟩
          have hd := daysInMonth_pos Y M
          have hle := (dLe_civil_iff i j).mp
            (dLe_trans _ _ _ h1 (dLe_trans _ _ _ (by rw [dLe_mk_iff]; omega) h2))
          omega

theorem monthlyLoop_yearGroup_mem : ∀ fuel i j Y, j + 1 - i ≤ fuel →
    (Tok.yearGroup Y ∈ monthlyLoop fuel true (i / 12, i % 12 + 1) (j / 12, j % 12 + 1) ↔
      i ≤ Y * 12 ∧ Y * 12 + 11 ≤ j) := by
  intro fuel
  induction fuel with
  | zero =>
    intro i j Y h
    constructor
    · intro hmem; exact absurd hmem (by simp [monthlyLoop])
    · rintro ⟨h1, h2⟩; omega
  | succ fuel ih =>
    intro i j Y h
    by_cases hij : i ≤ j
    · have hcond := (pLe_pairIdx_iff i j).mpr hij
      simp only [monthlyLoop]
      rw [if_pos hcond]
      by_cases hy : i % 12 = 0 ∧ pLe (i / 12, 12) (j / 12, j % 12 + 1)
      · obtain ⟨h0, hYend⟩ := hy
        rw [if_pos (⟨trivial, by omega, hYend⟩ :
          True ∧ i % 12 + 1 = 1 ∧ pLe (i / 12, 12) (j / 12, j % 12 + 1))]
        have hYe := (pLe_yearEnd_iff i j).mp hYend
        have hnextp : ((i / 12 + 1, 1) : Nat × Nat) = ((i + 12) / 12, (i + 12) % 12 + 1) := by
          have h1 : (i + 12) / 12 = i / 12 + 1 := by omega
          have h2 : (i + 12) % 12 = 0 := by omega
          rw [h1, h2]
        rw [hnextp, List.mem_cons, Tok.yearGroup.injEq, ih (i + 12) j Y (by omega)]
        omega
      · rw [if_neg (fun hc => hy ⟨by omega, hc.2.2⟩)]
        rw [nextMonthPair_pairIdx]
        have hho : (Tok.yearGroup Y = Tok.month (i / 12) (i % 12 + 1)) = False := by simp
        rw [List.mem_cons, hho, false_or, ih (i + 1) j Y (by omega)]
        have hy2 : ¬(i % 12 = 0 ∧ i / 12 * 12 + 11 ≤ j) :=
          fun hc => hy ⟨hc.1, (pLe_yearEnd_iff i j).mpr hc.2⟩
        omega
    · have hcond : ¬ pLe (i / 12, i % 12 + 1) (j / 12, j % 12 + 1) :=
        fun hc => hij ((pLe_pairIdx_iff i j).mp hc)
      simp only [monthlyLoop]
      rw [if_neg hcond]
      constructor
      · intro hmem; exact absurd hmem (by simp)
      · rintro ⟨h1, h2⟩; omega

theorem mem_prefixed (pre : String) (toks : List Tok) (t0 : Tok) :
    pre ++ renderTok t0 ∈ (dedupFirst (toks.map renderTok)).map (fun v => pre ++ v) ↔
      t0 ∈ toks := by
  have h1 : pre ++ renderTok t0 ∈
      (dedupFirst (toks.map renderTok)).map (fun v => pre ++ v) ↔
      renderTok t0 ∈ dedupFirst (toks.map renderTok) :=
    List.mem_map_of_injective (fun a b hab => string_append_left_cancel pre a b hab)
  have h2 := mem_dedupFirst (toks.map renderTok) (renderTok t0)
  have h3 : renderTok t0 ∈ toks.map renderTok ↔ t0 ∈ toks :=
    List.mem_map_of_injective (fun a b hab => renderTok_inj a b hab)
  rw [h1, h2, h3]

theorem daily_group_tokens (pre : String) (s e : Nat) (h : s ≤ e) (l : List String)
    (hl : indexesByTimeRange pre s e PeriodType.DAILY true = Except.ok l) :
    (∀ Y, pre ++ renderTok (Tok.yearGroup Y) ∈ l ↔
        dLe (dateOf s) ⟨Y, 1, 1⟩ ∧ dLe ⟨Y, 12, 31⟩ (dateOf e))
    ∧ (∀ Y M, pre ++ renderTok (Tok.monthGroup Y M) ∈ l ↔
        1 ≤ M ∧ M ≤ 12 ∧ dLe (dateOf s) ⟨Y, M, 1⟩
          ∧ dLe ⟨Y, M, daysInMonth Y M⟩ (dateOf e)
          ∧ ¬(dLe (dateOf s) ⟨Y, 1, 1⟩ ∧ dLe ⟨Y, 12, 31⟩ (dateOf e))) := by
  have harm : indexesByTimeRange pre s e PeriodType.DAILY true =
      Except.ok ((dedupFirst ((dailyLoop (dayIdx e + 2) true (civilFromDay (dayIdx s))
        (civilFromDay (dayIdx e))).map renderTok)).map (fun v => pre ++ v)) := by
    unfold indexesByTimeRange
    rw [if_neg (by omega)]
    rfl
  rw [harm] at hl
  injection hl with hleq
  subst hleq
  constructor
  · intro Y
    exact (mem_prefixed pre _ _).trans
      ((dailyLoop_group_mem (dayIdx e + 2) (dayIdx s) (dayIdx e) Y 1 (by omega)
        (by omega) (by omega)).1)
  · intro Y M
    by_cases hM : 1 ≤ M ∧ M ≤ 12
    · have hiff := (mem_prefixed pre _ _).trans
        ((dailyLoop_group_mem (dayIdx e + 2) (dayIdx s) (dayIdx e) Y M (by omega)
          hM.1 hM.2).2)
      constructor
      · intro hmem
        exact ⟨hM.1, hM.2, hiff.mp hmem⟩
      · rintro ⟨_, _, hc1, hc2, hc3⟩
        exact hiff.mpr ⟨hc1, hc2, hc3⟩
    · constructor
      · intro hmem
        exact absurd (dailyLoop_monthGroup_bounds _ _ _ _ Y M
          (civilFromDay_valid (dayIdx s)) ((mem_prefixed pre _ _).mp hmem)) hM
      · rintro ⟨h1, h2, _⟩
        exact absurd ⟨h1, h2⟩ hM

theorem monthly_group_tokens (pre : String) (s e : Nat) (h : s ≤ e) (l : List String)
    (hl : indexesByTimeRange pre s e PeriodType.MONTHLY true = Except.ok l) :
    (∀ Y, pre ++ renderTok (Tok.yearGroup Y) ∈ l ↔
        pLe ((dateOf s).year, (dateOf s).month) (Y, 1)
          ∧ pLe (Y, 12) ((dateOf e).year, (dateOf e).month))
    ∧ (∀ Y M, pre ++ renderTok (Tok.monthGroup Y M) ∉ l) := by
  have harm : indexesByTimeRange pre s e PeriodType.MONTHLY true =
      Except.ok ((dedupFirst ((monthlyLoop (dayIdx e + 2) true
        ((dateOf s).year, (dateOf s).month)
        ((dateOf e).year, (dateOf e).month)).map renderTok)).map (fun v => pre ++ v)) := by
    unfold indexesByTimeRange
    rw [if_neg (by omega)]
  rw [harm] at hl
  injection hl with hleq
  subst hleq
  have hfuelm : monthIdxOf e + 1 - monthIdxOf s ≤ dayIdx e + 2 := by
    have hds := dayIdx_mono s e h
    have hadd := civil_monthIdx_add (dayIdx s) (dayIdx e - dayIdx s)
    rw [show dayIdx s + (dayIdx e - dayIdx s) = dayIdx e from by omega] at hadd
    unfold monthIdxOf dateOf
    omega
  constructor
  · intro Y
    rw [pair_monthIdxOf s, pair_monthIdxOf e]
    rw [(mem_prefixed pre _ _).trans
      (monthlyLoop_yearGroup_mem (dayIdx e + 2) (monthIdxOf s) (monthIdxOf e) Y hfuelm)]
    constructor
    · intro hh
      refine ⟨?_, ?_⟩
      · show monthIdxOf s / 12 < Y ∨
          (monthIdxOf s / 12 = Y ∧ monthIdxOf s % 12 + 1 ≤ 1)
        omega
      · show Y < monthIdxOf e / 12 ∨
          (Y = monthIdxOf e / 12 ∧ 12 ≤ monthIdxOf e % 12 + 1)
        omega
    · rintro ⟨h1, h2⟩
      have h1a : monthIdxOf s / 12 < Y ∨
          (monthIdxOf s / 12 = Y ∧ monthIdxOf s % 12 + 1 ≤ 1) := h1
      have h2a : Y < monthIdxOf e / 12 ∨
          (Y = monthIdxOf e / 12 ∧ 12 ≤ monthIdxOf e % 12 + 1) := h2
      omega
  · intro Y M hmem
    rcases monthlyLoop_shape _ _ _ _ _ ((mem_prefixed pre _ _).mp hmem) with
      ⟨y, m, heq⟩ | ⟨y, heq⟩ <;> simp at heq

theorem yearly_no_groups (pre : String) (s e : Nat) (h : s ≤ e) (l : List String)
    (hl : indexesByTimeRange pre s e PeriodType.YEARLY true = Except.ok l) :
    ∀ Y, pre ++ renderTok (Tok.yearGroup Y) ∉ l
      ∧ ∀ M, pre ++ renderTok (Tok.monthGroup Y M) ∉ l := by
  have harm : indexesByTimeRange pre s e PeriodType.YEARLY true =
      Except.ok ((dedupFirst ((yearlyLoop (dayIdx e + 2) (dateOf s).year
        (dateOf e).year).map renderTok)).map (fun v => pre ++ v)) := by
    unfold indexesByTimeRange
    rw [if_neg (by omega)]
  rw [harm] at hl
  injection hl with hleq
  subst hleq
  intro Y
  constructor
  · intro hmem
    obtain ⟨y, heq⟩ := yearlyLoop_shape _ _ _ _ ((mem_prefixed pre _ _).mp hmem)
    simp at heq
  · intro M hmem
    obtain ⟨y, heq⟩ := yearlyLoop_shape _ _ _ _ ((mem_prefixed pre _ _).mp hmem)
    simp at heq

/-- Claim C4: for every valid range, with `enableGroupSelect = true` a group
token appears in the output exactly when the cursor walk reaches the first
sub-unit of the corresponding coarser period and that period's end lies
within the requested range: under daily partitioning the year group
`YYYY.*` appears iff January 1 of `Y` is at or after the range start and
December 31 of `Y` is within the range, and the month group `YYYY.MM.*`
appears iff day 1 of the month is reachable, the month's last day is within
the range, and the enclosing year is not itself fully covered (in which
case the year group swallows it); under monthly partitioning the year group
appears iff month 1 of `Y` is at or after the start month and month 12 is
within the range, and no `YYYY.MM.*` month group is ever emitted; under
yearly partitioning no group token is ever emitted. -/
theorem indexesByTimeRange_group_emission (pre : String) (s e : Nat) (h : s ≤ e) :
    (∀ l, indexesByTimeRange pre s e PeriodType.DAILY true = Except.ok l →
      (∀ Y, pre ++ renderTok (Tok.yearGroup Y) ∈ l ↔
          dLe (dateOf s) ⟨Y, 1, 1⟩ ∧ dLe ⟨Y, 12, 31⟩ (dateOf e))
      ∧ (∀ Y M, pre ++ renderTok (Tok.monthGroup Y M) ∈ l ↔
          1 ≤ M ∧ M ≤ 12 ∧ dLe (dateOf s) ⟨Y, M, 1⟩
            ∧ dLe ⟨Y, M, daysInMonth Y M⟩ (dateOf e)
            ∧ ¬(dLe (dateOf s) ⟨Y, 1, 1⟩ ∧ dLe ⟨Y, 12, 31⟩ (dateOf e))))
    ∧ (∀ l, indexesByTimeRange pre s e PeriodType.MONTHLY true = Except.ok l →
      (∀ Y, pre ++ renderTok (Tok.yearGroup Y) ∈ l ↔
          pLe ((dateOf s).year, (dateOf s).month) (Y, 1)
            ∧ pLe (Y, 12) ((dateOf e).year, (dateOf e).month))
      ∧ (∀ Y M, pre ++ renderTok (Tok.monthGroup Y M) ∉ l))
    ∧ (∀ l, indexesByTimeRange pre s e PeriodType.YEARLY true = Except.ok l →
      ∀ Y, pre ++ renderTok (Tok.yearGroup Y) ∉ l
        ∧ ∀ M, pre ++ renderTok (Tok.monthGroup Y M) ∉ l) :=
  ⟨fun l hl => daily_group_tokens pre s e h l hl,
   fun l hl => monthly_group_tokens pre s e h l hl,
   fun l hl => yearly_no_groups pre s e h l hl⟩

/-- Witness for C4 at the repository's full-year daily fixture. -/
theorem indexesByTimeRange_group_emission_witness :
    1546268400 ≤ 1577890799 ∧
      ((∀ l, indexesByTimeRange "test_" 1546268400 1577890799 PeriodType.DAILY true =
          Except.ok l →
        (∀ Y, "test_" ++ renderTok (Tok.yearGroup Y) ∈ l ↔
            dLe (dateOf 1546268400) ⟨Y, 1, 1⟩ ∧ dLe ⟨Y, 12, 31⟩ (dateOf 1577890799))
        ∧ (∀ Y M, "test_" ++ renderTok (Tok.monthGroup Y M) ∈ l ↔
            1 ≤ M ∧ M ≤ 12 ∧ dLe (dateOf 1546268400) ⟨Y, M, 1⟩
              ∧ dLe ⟨Y, M, daysInMonth Y M⟩ (dateOf 1577890799)
              ∧ ¬(dLe (dateOf 1546268400) ⟨Y, 1, 1⟩
                  ∧ dLe ⟨Y, 12, 31⟩ (dateOf 1577890799))))
      ∧ (∀ l, indexesByTimeRange "test_" 1546268400 1577890799 PeriodType.MONTHLY true =
          Except.ok l →
        (∀ Y, "test_" ++ renderTok (Tok.yearGroup Y) ∈ l ↔
            pLe ((dateOf 1546268400).year, (dateOf 1546268400).month) (Y, 1)
              ∧ pLe (Y, 12) ((dateOf 1577890799).year, (dateOf 1577890799).month))
        ∧ (∀ Y M, "test_" ++ renderTok (Tok.monthGroup Y M) ∉ l))
      ∧ (∀ l, indexesByTimeRange "test_" 1546268400 1577890799 PeriodType.YEARLY true =
          Except.ok l →
        ∀ Y, "test_" ++ renderTok (Tok.yearGroup Y) ∉ l
          ∧ ∀ M, "test_" ++ renderTok (Tok.monthGroup Y M) ∉ l)) :=
  ⟨by omega,
   indexesByTimeRange_group_emission "test_" 1546268400 1577890799 (by omega)⟩
